import Mathlib

/-!
Verification development for the RTF25 right-to-be-forgotten engine.

We shallowly embed the algorithmic core of the repository:
* the Attribute/Cell data model (cell.py),
* denial-constraint attribute extraction (InferenceGraph/build_attrib_dep_graph.py),
* hyperedge construction (InferenceGraph/bulid_hyperedges.py),
* conditioned bound inference (ID Computation/IGC_d_getBounds.py, getBounds.py),
* the global-domain computation (ID Computation/get_global_domain.py),
* the multi-level optimizer loop (rtf_core/multi_level_optimizer.py),
* the one-pass hypergraph/cost-tree builder and optimal-deletion extractor
  (InferenceGraph/one_pass_optimal_delete.py),
and prove or refute the frozen specification claims against these embeddings.

Python dicts are modelled as association lists, Python sets as lists with
membership-checked insertion (all observations used by the code - membership,
min, max, sum, length - are insensitive to this representation), database
rows as finite maps, and numeric values as Int / Rat.  Fallible code returns
Option / Except-like results; potential nontermination is modelled with an
explicit fuel argument.
-/

namespace RTF

/-! ## Data model (cell.py)

`Attribute` is a Lean keyword-adjacent command name, so the embedded class is
called `Attrib`; fields and equality (by (table, col), resp. by all three
fields of a cell) follow the source. -/

inductive Val where
  | vint : Int → Val
  | vstr : String → Val
deriving DecidableEq

structure Attrib where
  table : String
  col : String
deriving DecidableEq

structure Cell where
  attr : Attrib
  key : Int
  value : Val
deriving DecidableEq

/-! ## Attribute extraction (InferenceGraph/build_attrib_dep_graph.py)

`extract_attributes(dc)` walks the predicates of one denial constraint.  A
predicate that is not a 3-tuple is skipped after printing a message (the
source logs and continues); for a well-formed predicate both sides that
contain a dot contribute the column name after the first dot.  The Python
set of attributes is modelled as a duplicate-free list built by
membership-checked insertion. -/

def splitDotAux : List Char → List Char → List (List Char)
  | [], acc => [acc.reverse]
  | c :: cs, acc =>
    if c = '.' then acc.reverse :: splitDotAux cs []
    else splitDotAux cs (c :: acc)

/-- Python s.split('.') over the character list of s. -/
def splitDot (s : String) : List String := (splitDotAux s.data []).map (fun l => ⟨l⟩)

/-- Column after the first dot, mirroring side.split('.')[1] guarded by '.' in side. -/
def sideCol (s : String) : Option String :=
  match splitDot s with
  | _ :: x :: _ => some x
  | _ => none

def addAttr (attrs : List String) (s : String) : List String :=
  match sideCol s with
  | some x => if x ∈ attrs then attrs else attrs ++ [x]
  | none => attrs

def extract_attributes (dc : List (List String)) : List String :=
  dc.foldl (fun attrs pred =>
    match pred with
    | [l, _, r] => addAttr (addAttr attrs l) r
    | _ => attrs) []

/-! ## Conditioned bound inference (ID Computation)

The relevant observable state of one table row is the pair of values of the
target attribute A and the known attribute B.  `BVal` models the Python
values a bound can take: an integer, None (SQL NULL surfacing through the
connector), or the floating infinities used by the code as sentinels. -/

structure BRow where
  a : Int
  b : Int
deriving DecidableEq

inductive BVal where
  | intv : Int → BVal
  | null : BVal
  | neginf : BVal
  | posinf : BVal
deriving DecidableEq

/-- SELECT MAX(a) FROM t WHERE b < v: the aggregate's value, NULL (none) when
no row qualifies. -/
def sqlMaxAWhereBLt (t : List BRow) (v : Int) : Option Int :=
  ((t.filter (fun r => r.b < v)).map (fun r => r.a)).max?

/-- SELECT MIN(a) FROM t WHERE b > v: the aggregate's value, NULL (none) when
no row qualifies. -/
def sqlMinAWhereBGt (t : List BRow) (v : Int) : Option Int :=
  ((t.filter (fun r => r.b > v)).map (fun r => r.a)).min?

/-- An aggregate query without GROUP BY returns exactly one row, so
cursor.fetchone() is some row whose single column holds the aggregate. -/
def fetchoneAgg (agg : Option Int) : Option (Option Int) := some agg

/-- DomainInfer._get_bounds_same_table (IGC_d_getBounds.py, lines 120-148).
lower = pred['max_val'] if pred else float('-inf'), and symmetrically for the
upper bound; the else branches are kept although fetchone on an aggregate is
always truthy. -/
def get_bounds_same_table (t : List BRow) (v : Int) : BVal × BVal :=
  let lower := match fetchoneAgg (sqlMaxAWhereBLt t v) with
    | some m => (match m with | some n => BVal.intv n | none => BVal.null)
    | none => BVal.neginf
  let upper := match fetchoneAgg (sqlMinAWhereBGt t v) with
    | some m => (match m with | some n => BVal.intv n | none => BVal.null)
    | none => BVal.posinf
  (lower, upper)

/-- Stable descending sort by the b field, modelling ORDER BY b DESC. -/
def insDescB (x : BRow) : List BRow → List BRow
  | [] => [x]
  | y :: ys => if x.b ≤ y.b then y :: insDescB x ys else x :: y :: ys

def sortDescB (l : List BRow) : List BRow :=
  l.foldl (fun acc x => insDescB x acc) []

/-- Stable ascending sort by the b field, modelling ORDER BY b ASC. -/
def insAscB (x : BRow) : List BRow → List BRow
  | [] => [x]
  | y :: ys => if y.b ≤ x.b then y :: insAscB x ys else x :: y :: ys

def sortAscB (l : List BRow) : List BRow :=
  l.foldl (fun acc x => insAscB x acc) []

/-- DomainInferer.get_bounds_int_int (getBounds.py, lines 36-65): SELECT a
FROM t WHERE b < v ORDER BY b DESC LIMIT 1 for the lower bound, the symmetric
query for the upper bound; fetchone is none when no row qualifies, and then
the float infinities are substituted. -/
def get_bounds_int_int (t : List BRow) (v : Int) : BVal × BVal :=
  let pred := (sortDescB (t.filter (fun r => r.b < v))).head?
  let lower := match pred with
    | some r => BVal.intv r.a
    | none => BVal.neginf
  let succ := (sortAscB (t.filter (fun r => r.b > v))).head?
  let upper := match succ with
    | some r => BVal.intv r.a
    | none => BVal.posinf
  (lower, upper)

/-! ## Global domain (ID Computation/get_global_domain.py)

Dt is a dict from row key to a row dict; a cell reference in this module is
the pair (key, attr).  A stored value is an Option Val (none models Python
None); a missing column makes Dt[t][attr] raise KeyError, modelled by a none
overall result. -/

abbrev DRow := List (String × Option Val)
abbrev DTable := List (Nat × DRow)
abbrev DCellRef := Nat × String

/-- Python dict .get: none when the column is absent. -/
def rowGet (r : DRow) (attr : String) : Option (Option Val) := r.lookup attr

def insertVal (vs : List (Option Val)) (v : Option Val) : List (Option Val) :=
  if v ∈ vs then vs else vs ++ [v]

/-- The accumulation loop of get_global_domain: for t in Dt, the value is
added when (t, attr) is not in delset or the stored value is not None;
the body indexes Dt[t][attr], raising KeyError (none) when attr is absent. -/
def gdvStep (attr : String) (delset : List DCellRef)
    (acc : Option (List (Option Val))) (p : Nat × DRow) : Option (List (Option Val)) :=
  match acc with
  | none => none
  | some vs =>
    if (p.1, attr) ∉ delset ∨ (rowGet p.2 attr).join ≠ none then
      match rowGet p.2 attr with
      | some v => some (insertVal vs v)
      | none => none
    else some vs

def globalDomainValues (dt : DTable) (attr : String) (delset : List DCellRef) :
    Option (List (Option Val)) :=
  dt.foldl (gdvStep attr delset) (some [])

inductive Domain where
  | intervals : List (Int × Int) → Domain
  | cats : List (Option Val) → Domain
  | unbounded : Domain
deriving DecidableEq

/-- isinstance(v, (int, float)); the None value is not numeric. -/
def isNumV : Option Val → Bool
  | some (Val.vint _) => true
  | _ => false

def numsOf (vs : List (Option Val)) : List Int :=
  vs.filterMap (fun v => match v with | some (Val.vint n) => some n | _ => none)

def pymin (l : List Int) : Int :=
  match l with
  | [] => 0
  | x :: xs => xs.foldl min x

def pymax (l : List Int) : Int :=
  match l with
  | [] => 0
  | x :: xs => xs.foldl max x

/-- get_global_domain (lines 17-30): collect the values, then return a single
numeric interval when every collected value is numeric, the value set
otherwise, and the documented defaults when nothing was collected. -/
def get_global_domain (dt : DTable) (attr : String) (delset : List DCellRef) :
    Option Domain :=
  match globalDomainValues dt attr delset with
  | none => none
  | some vs =>
    if vs ≠ [] then
      if vs.all isNumV then
        some (Domain.intervals [(pymin (numsOf vs), pymax (numsOf vs))])
      else some (Domain.cats vs)
    else if attr = "numeric" then some Domain.unbounded
    else some (Domain.cats [some (Val.vstr "ALL")])

/-- Membership of a value in a returned Domain. -/
def domContains (d : Domain) (v : Val) : Prop :=
  match d with
  | Domain.intervals l => ∃ p ∈ l, match v with
      | Val.vint n => p.1 ≤ n ∧ n ≤ p.2
      | Val.vstr _ => False
  | Domain.cats vs => some v ∈ vs
  | Domain.unbounded => True

/-! ## Hyperedge builder (InferenceGraph/bulid_hyperedges.py)

A denial constraint is an ordered list of predicate triples
(left reference, operator, right reference); references are alias-qualified
strings split at dots.  HyperedgeBuilder.build_hyperedges (lines 76-109)
finds the first predicate mentioning the target attribute, turns the
remaining predicates into tail cells (dropping columns absent from the row),
and deduplicates the resulting hyperedges by the frozen set of tail cells,
keeping first occurrences.  The seen dict is modelled as an association list
from the tail-cell Finset to the hyperedge. -/

abbrev Pred := String × String × String
abbrev DC := List Pred

/-- Column name after the last dot: side.split('.')[-1]. -/
def lastPart (s : String) : String := (splitDot s).getLastD ""

/-- HyperedgeBuilder._find_target_predicate. -/
def findTargetPredicate (dc : DC) (target : String) : Option Nat :=
  dc.findIdx? (fun p => lastPart p.1 = target ∨ lastPart p.2.2 = target)

/-- HyperedgeBuilder._create_tail_cells: take the left operand's column of
each tail predicate, keep it only when the row has that column. -/
def createTailCells (tails : List Pred) (row : List (String × Val)) (key : Int)
    (table : String) : List Cell :=
  tails.filterMap (fun p =>
    match row.lookup (lastPart p.1) with
    | some v => some ⟨⟨table, lastPart p.1⟩, key, v⟩
    | none => none)

/-- The tail-cell set one DC contributes for the target attribute, none when
the DC is irrelevant or yields no tail cells. -/
def dcTailCells (dc : DC) (row : List (String × Val)) (key : Int)
    (table : String) (target : String) : Option (List Cell) :=
  match findTargetPredicate dc target with
  | none => none
  | some i =>
    let cells := createTailCells (dc.eraseIdx i) row key table
    if cells = [] then none else some cells

def hyperedgeFold (seen : List (Finset Cell × List Cell)) (dc : DC)
    (row : List (String × Val)) (key : Int) (table : String) (target : String) :
    List (Finset Cell × List Cell) :=
  match dcTailCells dc row key table target with
  | none => seen
  | some cells =>
    let keyset := cells.toFinset
    if keyset ∈ seen.map Prod.fst then seen else seen ++ [(keyset, cells)]

/-- HyperedgeBuilder.build_hyperedges: the deduplicated hyperedges, each the
list of its tail cells, in first-encounter order. -/
def build_hyperedges (dcs : List DC) (row : List (String × Val)) (key : Int)
    (table : String) (target : String) : List (List Cell) :=
  (dcs.foldl (fun seen dc => hyperedgeFold seen dc row key table target) []).map Prod.snd

/-- The frozen tail-cell set one DC contributes, if any. -/
def dcKeyset (dc : DC) (row : List (String × Val)) (key : Int)
    (table : String) (target : String) : Option (Finset Cell) :=
  (dcTailCells dc row key table target).map List.toFinset

/-! ## Multi-level optimizer (rtf_core/multi_level_optimizer.py)

The external collaborators (database-backed restriction factors, the global
domain size) are parameters of `OptConfig`; the loop state is the deletion
set and the cached current domain size.  Restriction factors are rationals
(Python floats carrying exact short decimals here); int() is truncation
toward zero. -/

structure OptConfig where
  constraintCells : List Cell
  rho : Cell → ℚ
  originalDomainSize : Int
  alpha : ℚ
  target : Cell

structure OptState where
  delset : List Cell
  currentDomainSize : Int
deriving DecidableEq

/-- Python int(): truncation toward zero. -/
def pyInt (q : ℚ) : Int := if 0 ≤ q then ⌊q⌋ else -⌊-q⌋

/-- The constraint cells whose constraint is still active (cell not deleted). -/
def activeCells (cfg : OptConfig) (delset : List Cell) : List Cell :=
  cfg.constraintCells.filter (fun c => c ∉ delset)

/-- RTFCorrectedAlgorithm._compute_domain_size_for_deletion_set
(lines 321-340): average the active restriction factors, scale the original
domain size by 1 - average, truncate, and clamp below at 1; with no active
restriction the original size is returned. -/
def computeDomainSize (cfg : OptConfig) (delset : List Cell) : Int :=
  let restrictions := (activeCells cfg delset).map cfg.rho
  if restrictions = [] then cfg.originalDomainSize
  else
    let avg := restrictions.sum / (restrictions.length : ℚ)
    max 1 (pyInt ((cfg.originalDomainSize : ℚ) * (1 - avg)))

/-- _calculate_deletion_benefit: hypothetical size minus the cached current
size. -/
def benefitOf (cfg : OptConfig) (st : OptState) (c : Cell) : Int :=
  computeDomainSize cfg (c :: st.delset) - st.currentDomainSize

/-- _check_privacy_threshold: true when original size is zero, else the
ratio test. -/
def checkPrivacyThreshold (cfg : OptConfig) (st : OptState) : Bool :=
  if cfg.originalDomainSize = 0 then true
  else cfg.alpha ≤ (st.currentDomainSize : ℚ) / (cfg.originalDomainSize : ℚ)

/-- Stable insertion for descending order by a rational key; ties keep the
earlier element first, matching Python's stable sorted(..., reverse=True). -/
def insDescQ (key : Cell → ℚ) (x : Cell) : List Cell → List Cell
  | [] => [x]
  | y :: ys => if key x ≤ key y then y :: insDescQ key x ys else x :: y :: ys

def sortDescQ (key : Cell → ℚ) (l : List Cell) : List Cell :=
  l.foldl (fun acc x => insDescQ key x acc) []

/-- The round's what-if plans, in most-restrictive-first candidate order. -/
def roundPlans (cfg : OptConfig) (st : OptState) : List (Int × Cell) :=
  (sortDescQ cfg.rho (activeCells cfg st.delset)).map (fun c => (benefitOf cfg st c, c))

/-- potential_plans.sort(key=..., reverse=True) followed by taking index 0:
the first plan attaining the maximal benefit (Python's sort is stable). -/
def pickFirstMax (plans : List (Int × Cell)) : Option (Int × Cell) :=
  match plans with
  | [] => none
  | p :: ps => some (ps.foldl (fun best x => if best.1 < x.1 then x else best) p)

/-- One iteration of run_complete_algorithm (lines 111-170): stop when no
constraint is active or the privacy threshold is met; otherwise commit the
winning candidate and recompute the domain size.  none models loop exit. -/
def optStep (cfg : OptConfig) (st : OptState) : Option OptState :=
  if activeCells cfg st.delset = [] then none
  else if checkPrivacyThreshold cfg st then none
  else
    match pickFirstMax (roundPlans cfg st) with
    | none => none
    | some bw =>
      let newDel := bw.2 :: st.delset
      some ⟨newDel, computeDomainSize cfg newDel⟩

/-- The sequence of optimizer states, starting from the initialized state;
fuel bounds the rounds (the source additionally caps iterations at 10, which
only shortens this trace). -/
def runOpt (cfg : OptConfig) : Nat → OptState → List OptState
  | 0, st => [st]
  | n + 1, st =>
    st :: (match optStep cfg st with
           | none => []
           | some st2 => runOpt cfg n st2)

/-! ## One-pass hypergraph/cost tree builder
(InferenceGraph/one_pass_optimal_delete.py)

OptimizedGraphNode wraps a cell, a list of branches, the incrementally
maintained cost and the is_cost_computed flag.  A branch is a triple of the
hyperedge's tail-cell list, the hyperedge's min_cell annotation (none until
_update_costs_incremental assigns it), and the child nodes.  The
min_cost_child field of the source is only read by debug printing and is not
modelled.  Hyperedge objects are created fresh per head cell, so the
min_cell annotation written by add_branch lives with the branch. -/

inductive GNode where
  | mk : Cell → List (List Cell × Option Cell × List GNode) → Nat → Bool → GNode

abbrev GBranch := List Cell × Option Cell × List GNode

def GNode.cell : GNode → Cell
  | .mk c _ _ _ => c

def GNode.branches : GNode → List GBranch
  | .mk _ bs _ _ => bs

def GNode.cost : GNode → Nat
  | .mk _ _ k _ => k

def GNode.isCostComputed : GNode → Bool
  | .mk _ _ _ f => f

/-- A freshly constructed OptimizedGraphNode: no branches, cost 1. -/
def GNode.leaf (c : Cell) : GNode := .mk c [] 1 false

/-- min_child selection in _update_costs_incremental: children[0], replaced
whenever a strictly cheaper child appears. -/
def minCostChild (children : List GNode) : Option GNode :=
  match children with
  | [] => none
  | c :: cs => some (cs.foldl (fun m x => if x.cost < m.cost then x else m) c)

/-- The cost of the selected cheapest child (0 only for an empty list, which
add_branch never charges). -/
def minChildCost (children : List GNode) : Nat :=
  match minCostChild children with
  | some m => m.cost
  | none => 0

/-- OptimizedGraphNode.add_branch (lines 40-72): append the branch, then run
_update_costs_incremental; with children present, the node's cost and the
hyperedge's min_cell are updated only when the cost was never computed or
the new cost is strictly smaller. -/
def GNode.addBranch (n : GNode) (he : List Cell) (children : List GNode) : GNode :=
  match minCostChild children with
  | none => .mk n.cell (n.branches ++ [(he, none, children)]) n.cost n.isCostComputed
  | some mc =>
    if ¬ n.isCostComputed = true ∨ 1 + mc.cost < n.cost then
      .mk n.cell (n.branches ++ [(he, some mc.cell, children)]) (1 + mc.cost) true
    else
      .mk n.cell (n.branches ++ [(he, none, children)]) n.cost n.isCostComputed

/-- Result of a fuel-indexed traversal: fuel exhaustion, a KeyError raised
by row[attr], or a value. -/
inductive BRes (α : Type) where
  | fuelOut : BRes α
  | keyErr : BRes α
  | ok : α → BRes α
deriving DecidableEq

/-- The node_map, keyed by attribute name. -/
abbrev NodeMap := List (String × GNode)

def nmLookup (nm : NodeMap) (a : String) : Option GNode := nm.lookup a

/-- node_map[attr] = node when attr is already present: the binding is
replaced in place (the source mutates the stored node object). -/
def nmUpdate (nm : NodeMap) (a : String) (n : GNode) : NodeMap :=
  nm.map (fun p => if p.1 = a then (a, n) else p)

/-- The inner loop over tail cells of one hyperedge: recurse on each tail
attribute not in the current snapshot, collecting child nodes in order and
threading the node map. -/
def processTails (recurse : String → List String → NodeMap → BRes (GNode × NodeMap))
    (current : List String) (snap2 : List String) :
    List Cell → NodeMap → BRes (List GNode × NodeMap)
  | [], nm => .ok ([], nm)
  | tc :: rest, nm =>
    if tc.attr.col ∈ current then processTails recurse current snap2 rest nm
    else
      match recurse tc.attr.col snap2 nm with
      | .fuelOut => .fuelOut
      | .keyErr => .keyErr
      | .ok (child, nm2) =>
        match processTails recurse current snap2 rest nm2 with
        | .fuelOut => .fuelOut
        | .keyErr => .keyErr
        | .ok (rest2, nm3) => .ok (child :: rest2, nm3)

/-- The loop over the hyperedges of the current cell: skip a hyperedge whose
tail attributes are all in the current snapshot, otherwise extend the
snapshot with all tail attributes, build the children, and attach the branch
when at least one child was produced. -/
def processHEs (recurse : String → List String → NodeMap → BRes (GNode × NodeMap))
    (current : List String) :
    List (List Cell) → GNode → NodeMap → BRes (GNode × NodeMap)
  | [], node, nm => .ok (node, nm)
  | he :: hes, node, nm =>
    let tailAttrs := he.map (fun tc => tc.attr.col)
    if tailAttrs.all (fun t => t ∈ current) then
      processHEs recurse current hes node nm
    else
      let snap2 := current ++ tailAttrs.filter (fun t => t ∉ current)
      match processTails recurse current snap2 he nm with
      | .fuelOut => .fuelOut
      | .keyErr => .keyErr
      | .ok (children, nm2) =>
        let node2 := match children with
          | [] => node
          | _ :: _ => node.addBranch he children
        processHEs recurse current hes node2 nm2

/-- The recursive worker of build_hypergraph_tree_with_costs (lines 108-140).
The cell is built from row[attr] (KeyError when absent); a memoized attribute
returns its stored node; otherwise the node is registered in the node map
(the source registers the mutable node object before expanding it and the
final update models the mutations becoming visible) and its hyperedges are
processed. -/
def recurseF (row : List (String × Val)) (key : Int)
    (hmap : Cell → List (List Cell)) :
    Nat → String → List String → NodeMap → BRes (GNode × NodeMap)
  | 0, _, _, _ => .fuelOut
  | fuel + 1, attr, snapshot, nm =>
    match row.lookup attr with
    | none => .keyErr
    | some v =>
      let cell : Cell := ⟨⟨"adult_data", attr⟩, key, v⟩
      match nmLookup nm attr with
      | some n => .ok (n, nm)
      | none =>
        let node := GNode.leaf cell
        let nm1 := (attr, node) :: nm
        match processHEs (recurseF row key hmap fuel) snapshot (hmap cell) node nm1 with
        | .fuelOut => .fuelOut
        | .keyErr => .keyErr
        | .ok (node2, nm2) => .ok (node2, nmUpdate nm2 attr node2)

/-- build_hypergraph_tree_with_costs (lines 84-142): start the traversal at
the target attribute with visited = the singleton snapshot. -/
def build_hypergraph_tree_with_costs (fuel : Nat) (row : List (String × Val))
    (key : Int) (startAttr : String) (hmap : Cell → List (List Cell)) :
    BRes (GNode × NodeMap) :=
  recurseF row key hmap fuel startAttr [startAttr] []

/-! ## Optimal deletion extractor (one_pass_optimal_delete.py, lines 145-199) -/

/-- First match when scanning a list of nodes with the given search function. -/
def searchList (find1 : GNode → Option GNode) : List GNode → Option GNode
  | [] => none
  | c :: cs =>
    match find1 c with
    | some r => some r
    | none => searchList find1 cs

def searchKids (find1 : GNode → Option GNode) : List GBranch → Option GNode
  | [] => none
  | b :: bs =>
    match searchList find1 b.2.2 with
    | some r => some r
    | none => searchKids find1 bs

/-- find_node: depth-first search for the node whose cell equals the target,
scanning branches and children in order. -/
def findNodeF : Nat → GNode → Cell → Option GNode
  | 0, _, _ => none
  | fuel + 1, n, target =>
    if n.cell = target then some n
    else searchKids (fun c => findNodeF fuel c target) n.branches

/-- Processing the branches of the dequeued node: for each branch whose
hyperedge carries a min_cell annotation not yet in the result set, add it
and enqueue its node (found by searching from the root). -/
def odBranches (findRoot : Cell → Option GNode) (bs : List GBranch)
    (acc : List Cell) : List Cell × List GNode :=
  bs.foldl (fun p b =>
    match b.2.1 with
    | some m =>
      if m ∈ p.1 then p
      else
        (p.1 ++ [m], p.2 ++ (match findRoot m with
                             | some nxt => [nxt]
                             | none => []))
    | none => p) (acc, [])

/-- The BFS while-loop over the queue; newly found nodes are appended behind
the remaining queue. -/
def odLoop (findRoot : Cell → Option GNode) : Nat → List GNode → List Cell → List Cell
  | 0, _, acc => acc
  | _ + 1, [], acc => acc
  | fuel + 1, curr :: queue, acc =>
    let stepped := odBranches findRoot curr.branches acc
    odLoop findRoot fuel (queue ++ stepped.2) stepped.1

/-- optimal_delete_with_precomputed_costs (lines 161-199): locate the node of
the deleted cell (the empty set is returned when it is absent) and follow
min_cell annotations breadth-first, starting from to_delete = the deleted
cell itself. -/
def optimal_delete_with_precomputed_costs (fuel : Nat) (root : GNode)
    (deleted : Cell) : List Cell :=
  match findNodeF fuel root deleted with
  | none => []
  | some start => odLoop (fun m => findNodeF fuel root m) fuel [start] [deleted]

/-! ## Derived notions about built trees -/

/-- The branch data of a node without the min_cell annotations. -/
def rawOf (n : GNode) : List (List Cell × List GNode) :=
  n.branches.map (fun b => (b.1, b.2.2))

/-- Replaying add_branch over branch data from a fresh node; a node of the
built tree is exactly the replay of its own branch data. -/
def rebuild (c : Cell) (raw : List (List Cell × List GNode)) : GNode :=
  raw.foldl (fun m p => m.addBranch p.1 p.2) (GNode.leaf c)

/-- Invariant of every node produced by the builder: the node is the replay
of its own branches via add_branch, every attached branch has children, and
the children satisfy the invariant recursively. -/
inductive GoodTree : GNode → Prop where
  | intro : ∀ n : GNode,
      n = rebuild n.cell (rawOf n) →
      (∀ b ∈ n.branches, b.2.2 ≠ []) →
      (∀ b ∈ n.branches, ∀ c ∈ b.2.2, GoodTree c) →
      GoodTree n

/-- All nodes of the node map satisfy the tree invariant. -/
def NmGood (nm : NodeMap) : Prop := ∀ p ∈ nm, GoodTree p.2

/-- Reachability between nodes of a tree along branch-children edges (the
hypergraph reachability relation). -/
inductive ReachN : GNode → GNode → Prop where
  | refl : ∀ n : GNode, ReachN n n
  | step : ∀ {n m : GNode} {b : GBranch} {c : GNode},
      b ∈ n.branches → c ∈ b.2.2 → ReachN c m → ReachN n m

/-- A cell is reachable from a node when some reachable node carries it. -/
def ReachCell (s : GNode) (c : Cell) : Prop :=
  ∃ n : GNode, ReachN s n ∧ n.cell = c

/-- Minimum of a list of naturals in the source's style (first element, then
fold with min); 0 only for the empty list. -/
def listMinNat : List Nat → Nat
  | [] => 0
  | x :: xs => xs.foldl min x

/-- The minimum child cost of one branch. -/
def branchMinCost (b : GBranch) : Nat := minChildCost b.2.2

/-- Correctness of a branch's min_cell annotation: when present, it names a
minimum-cost child of that same branch. -/
def AnnP (b : GBranch) : Prop :=
  ∀ c : Cell, b.2.1 = some c →
    ∃ ch ∈ b.2.2, ch.cell = c ∧ ∀ ch2 ∈ b.2.2, ch.cost ≤ ch2.cost

/-- Executable check that a branch's min_cell annotation, when present,
names a minimum-cost child of that branch. -/
def annOkB (b : GBranch) : Bool :=
  match b.2.1 with
  | none => true
  | some c =>
    b.2.2.any (fun ch =>
      decide (ch.cell = c) && b.2.2.all (fun ch2 => decide (ch.cost ≤ ch2.cost)))

/-- Fuel-indexed recursive annotation check over a whole tree. -/
def annTreeB : Nat → GNode → Bool
  | 0, _ => false
  | fuel + 1, n => n.branches.all (fun b => annOkB b && b.2.2.all (annTreeB fuel))

def allNodesList (f : GNode → Option (List GNode)) : List GNode → Option (List GNode)
  | [] => some []
  | c :: cs =>
    match f c, allNodesList f cs with
    | some l1, some l2 => some (l1 ++ l2)
    | _, _ => none

def allNodesBranches (f : GNode → Option (List GNode)) :
    List GBranch → Option (List GNode)
  | [] => some []
  | b :: bs =>
    match allNodesList f b.2.2, allNodesBranches f bs with
    | some l1, some l2 => some (l1 ++ l2)
    | _, _ => none

/-- Fuel-indexed collection of all nodes of a tree (none on fuel exhaustion). -/
def allNodesF : Nat → GNode → Option (List GNode)
  | 0, _ => none
  | fuel + 1, n =>
    match allNodesBranches (allNodesF fuel) n.branches with
    | some l => some (n :: l)
    | none => none

/-- Executable check that the nodes of a tree carry pairwise distinct cells
(true of built trees, whose node map is keyed by attribute). -/
def cellsNodupB (fuel : Nat) (root : GNode) : Bool :=
  match allNodesF fuel root with
  | some ns => decide ((ns.map GNode.cell).Nodup)
  | none => false

/-- Key-set monotonicity between node maps. -/
def keysMono (nm nm2 : NodeMap) : Prop :=
  ∀ a : String, (nmLookup nm a).isSome = true → (nmLookup nm2 a).isSome = true

/-- The number of row attributes not yet registered in the node map; the
termination measure of the builder. -/
def unexpanded (row : List (String × Val)) (nm : NodeMap) : Nat :=
  (((row.map Prod.fst).dedup).filter (fun a => (nmLookup nm a).isNone)).length

/-! ## Concrete fixtures used by witnesses and counterexamples -/

def cellA : Cell := ⟨⟨"adult_data", "A"⟩, 2, Val.vint 1⟩

def cellB : Cell := ⟨⟨"adult_data", "B"⟩, 2, Val.vint 2⟩

def cellC : Cell := ⟨⟨"adult_data", "C"⟩, 2, Val.vint 3⟩

/-- A cell absent from the fixture tree (same attribute as cellA, different
value, hence a different cell). -/
def cellX : Cell := ⟨⟨"adult_data", "A"⟩, 2, Val.vint 99⟩

def row0 : List (String × Val) :=
  [("A", Val.vint 1), ("B", Val.vint 2), ("C", Val.vint 3)]

/-- Two hyperedges on the head cell A, with tails {B} and {C}. -/
def hmap0 : Cell → List (List Cell) :=
  fun c => if c = cellA then [[cellB], [cellC]] else []

def buildRes0 : BRes (GNode × NodeMap) :=
  build_hypergraph_tree_with_costs 5 row0 2 "A" hmap0

def root0 : GNode :=
  match buildRes0 with
  | .ok p => p.1
  | _ => GNode.leaf cellA

def nmTree0 : NodeMap :=
  match buildRes0 with
  | .ok p => p.2
  | _ => []

def nodeB0 : GNode :=
  match findNodeF 5 root0 cellB with
  | some n => n
  | none => GNode.leaf cellB

/-- Optimizer fixtures: a target cell and two constraint cells with equal
restriction factors 1/2, original domain size 10, threshold 0.8. -/
def tCell : Cell := ⟨⟨"adult_data", "education"⟩, 2, Val.vstr "Bachelors"⟩

def cCell1 : Cell := ⟨⟨"adult_data", "education_num"⟩, 2, Val.vint 13⟩

def cCell2 : Cell := ⟨⟨"adult_data", "occupation"⟩, 2, Val.vstr "Tech"⟩

def cfg0 : OptConfig :=
  { constraintCells := [cCell1, cCell2]
    rho := fun c => if c = cCell1 then 1/2 else if c = cCell2 then 1/2 else 0
    originalDomainSize := 10
    alpha := 8/10
    target := tCell }

def st0 : OptState := ⟨[tCell], 5⟩

/-! # Theorems -/

/-! ## Claim C8: malformed predicates in extract_attributes -/

/-- Claim C8 (code bug): extract_attributes is a total function that, on a
denial constraint whose first predicate lacks the 3-tuple shape, simply
returns the attributes of the remaining predicates: the malformed predicate
is silently dropped (after a log line) and no MalformedConstraintError ever
reaches the caller, contradicting the specified error contract. -/
theorem extract_attributes_silently_skips_malformed :
    extract_attributes [["t1.a", "!="], ["t1.b", "=", "t2.c"]] = ["b", "c"] := rfl

/-! ## Claim C2: conditioned bound inference -/

/-- Claim C2 (code bug): on a table whose only row is (A, B) = (10, 5) and
known value v = 3, no row satisfies B < 3, yet _get_bounds_same_table
returns SQL NULL (None) for the lower bound rather than the documented
negative infinity, because the MAX aggregate always returns one row and the
float('-inf') branch is dead.  In addition, the getBounds.py variant returns
the A-value of the B-adjacent row (3) instead of MAX(A) over B < v (5). -/
theorem bounds_same_table_null_not_neginf :
    get_bounds_same_table [⟨10, 5⟩] 3 = (BVal.null, BVal.intv 10) ∧
    get_bounds_same_table [⟨10, 5⟩] 3 ≠ (BVal.neginf, BVal.intv 10) ∧
    sqlMaxAWhereBLt [⟨5, 1⟩, ⟨3, 2⟩] 3 = some 5 ∧
    get_bounds_int_int [⟨5, 1⟩, ⟨3, 2⟩] 3 = (BVal.intv 3, BVal.posinf) := by
  refine ⟨rfl, by decide, rfl, rfl⟩

/-! ## Claim C10: the global domain keeps deleted non-null values -/

lemma gdvStep_none (attr : String) (delset : List DCellRef) (p : Nat × DRow) :
    gdvStep attr delset none p = none := rfl

lemma gdv_fold_none (attr : String) (delset : List DCellRef) :
    ∀ dt : DTable, dt.foldl (gdvStep attr delset) none = none := by
  intro dt
  induction dt with
  | nil => rfl
  | cons p dt ih => rw [List.foldl_cons, gdvStep_none]; exact ih

lemma insertVal_mem_self (vs : List (Option Val)) (v : Option Val) :
    v ∈ insertVal vs v := by
  by_cases h : v ∈ vs <;> simp [insertVal, h]

lemma insertVal_mem_of {x : Option Val} {vs : List (Option Val)} (v : Option Val)
    (h : x ∈ vs) : x ∈ insertVal vs v := by
  by_cases h2 : v ∈ vs <;> simp [insertVal, h2, h]

lemma gdvStep_some_sub {attr : String} {delset : List DCellRef}
    {acc vs2 : List (Option Val)} {p : Nat × DRow}
    (h : gdvStep attr delset (some acc) p = some vs2) :
    ∀ x ∈ acc, x ∈ vs2 := by
  intro x hx
  simp only [gdvStep] at h
  by_cases hc : ((p.1, attr) ∉ delset ∨ (rowGet p.2 attr).join ≠ none)
  · rw [if_pos hc] at h
    cases hv : rowGet p.2 attr with
    | none => rw [hv] at h; cases h
    | some w => rw [hv] at h; cases h; exact insertVal_mem_of _ hx
  · rw [if_neg hc] at h
    cases h
    exact hx

lemma gdv_mem_mono (attr : String) (delset : List DCellRef) :
    ∀ (dt : DTable) (acc vs : List (Option Val)) (x : Option Val),
      dt.foldl (gdvStep attr delset) (some acc) = some vs → x ∈ acc → x ∈ vs := by
  intro dt
  induction dt with
  | nil => intro acc vs x h hx; cases h; exact hx
  | cons p dt ih =>
    intro acc vs x h hx
    rw [List.foldl_cons] at h
    cases hstep : gdvStep attr delset (some acc) p with
    | none => rw [hstep, gdv_fold_none] at h; cases h
    | some acc2 =>
      rw [hstep] at h
      exact ih acc2 vs x h (gdvStep_some_sub hstep x hx)

lemma gdv_adds (attr : String) (delset : List DCellRef) (t : Nat) (r : DRow)
    (v : Val) (hval : rowGet r attr = some (some v)) :
    ∀ (dt : DTable) (acc vs : List (Option Val)), (t, r) ∈ dt →
      dt.foldl (gdvStep attr delset) (some acc) = some vs → some v ∈ vs := by
  intro dt
  induction dt with
  | nil => intro acc vs hmem; cases hmem
  | cons p dt ih =>
    intro acc vs hmem h
    rw [List.foldl_cons] at h
    rcases List.mem_cons.mp hmem with heq | htail
    · have hstep : gdvStep attr delset (some acc) (t, r) =
          some (insertVal acc (some v)) := by
        simp [gdvStep, hval]
      rw [← heq, hstep] at h
      exact gdv_mem_mono attr delset dt _ vs _ h (insertVal_mem_self acc (some v))
    · cases hstep : gdvStep attr delset (some acc) p with
      | none => rw [hstep, gdv_fold_none] at h; cases h
      | some acc2 => rw [hstep] at h; exact ih acc2 vs htail h

lemma foldl_min_le_init (xs : List Int) (x : Int) : xs.foldl min x ≤ x := by
  induction xs generalizing x with
  | nil => exact le_refl x
  | cons y ys ih =>
    rw [List.foldl_cons]
    exact le_trans (ih (min x y)) (min_le_left x y)

lemma foldl_min_le_mem {xs : List Int} {a : Int} (x : Int) (h : a ∈ xs) :
    xs.foldl min x ≤ a := by
  induction xs generalizing x with
  | nil => cases h
  | cons y ys ih =>
    rw [List.foldl_cons]
    rcases List.mem_cons.mp h with rfl | hmem
    · exact le_trans (foldl_min_le_init ys (min x a)) (min_le_right x a)
    · exact ih _ hmem

lemma pymin_le {l : List Int} {a : Int} (h : a ∈ l) : pymin l ≤ a := by
  cases l with
  | nil => cases h
  | cons x xs =>
    rcases List.mem_cons.mp h with rfl | hmem
    · exact foldl_min_le_init xs a
    · exact foldl_min_le_mem x hmem

lemma le_foldl_max_init (xs : List Int) (x : Int) : x ≤ xs.foldl max x := by
  induction xs generalizing x with
  | nil => exact le_refl x
  | cons y ys ih =>
    rw [List.foldl_cons]
    exact le_trans (le_max_left x y) (ih (max x y))

lemma mem_le_foldl_max {xs : List Int} {a : Int} (x : Int) (h : a ∈ xs) :
    a ≤ xs.foldl max x := by
  induction xs generalizing x with
  | nil => cases h
  | cons y ys ih =>
    rw [List.foldl_cons]
    rcases List.mem_cons.mp h with rfl | hmem
    · exact le_trans (le_max_right x a) (le_foldl_max_init ys (max x a))
    · exact ih _ hmem

lemma le_pymax {l : List Int} {a : Int} (h : a ∈ l) : a ≤ pymax l := by
  cases l with
  | nil => cases h
  | cons x xs =>
    rcases List.mem_cons.mp h with rfl | hmem
    · exact le_foldl_max_init xs a
    · exact mem_le_foldl_max x hmem

/-- Claim C10: get_global_domain includes the stored value of a cell that is
a member of the deletion set whenever that value is not None: the value lands
in the collected value set, and therefore inside the returned domain
(interval bounds for the all-numeric case, set membership otherwise).
Deletion-set membership alone never removes a value. -/
theorem global_domain_keeps_deleted_values
    (dt : DTable) (attr : String) (delset : List DCellRef) (t : Nat) (r : DRow)
    (v : Val) (vs : List (Option Val))
    (hmem : (t, r) ∈ dt) (hval : rowGet r attr = some (some v))
    (hdel : (t, attr) ∈ delset)
    (hok : globalDomainValues dt attr delset = some vs) :
    some v ∈ vs ∧ ∀ d, get_global_domain dt attr delset = some d → domContains d v := by
  have hv : some v ∈ vs := gdv_adds attr delset t r v hval dt [] vs hmem hok
  refine ⟨hv, ?_⟩
  intro d hd
  have hgd : get_global_domain dt attr delset =
      (if vs ≠ [] then
        (if vs.all isNumV = true then
          some (Domain.intervals [(pymin (numsOf vs), pymax (numsOf vs))])
        else some (Domain.cats vs))
      else if attr = "numeric" then some Domain.unbounded
      else some (Domain.cats [some (Val.vstr "ALL")])) := by
    unfold get_global_domain
    rw [hok]
  rw [hgd] at hd
  have hne : vs ≠ [] := List.ne_nil_of_mem hv
  rw [if_pos hne] at hd
  by_cases hall : vs.all isNumV = true
  · rw [if_pos hall] at hd
    cases v with
    | vstr s =>
      have : isNumV (some (Val.vstr s)) = true := List.all_eq_true.mp hall _ hv
      simp [isNumV] at this
    | vint n =>
      cases hd
      have hnum : n ∈ numsOf vs := List.mem_filterMap.mpr ⟨some (Val.vint n), hv, rfl⟩
      exact ⟨(pymin (numsOf vs), pymax (numsOf vs)), List.mem_singleton.mpr rfl,
        pymin_le hnum, le_pymax hnum⟩
  · rw [if_neg hall] at hd
    cases hd
    exact hv

/-- Claim C10 witness: in a two-row table where row 3 stores age 30 and
(3, age) is deleted, the value 30 is still collected. -/
theorem global_domain_keeps_deleted_values_witness :
    ((3, [("age", some (Val.vint 30))]) ∈
      ([(1, [("age", some (Val.vint 25))]), (3, [("age", some (Val.vint 30))])] : DTable)) ∧
    some (Val.vint 30) ∈ [some (Val.vint 25), some (Val.vint 30)] :=
  ⟨by decide,
    (global_domain_keeps_deleted_values
      [(1, [("age", some (Val.vint 25))]), (3, [("age", some (Val.vint 30))])]
      "age" [(3, "age")] 3 [("age", some (Val.vint 30))] (Val.vint 30)
      [some (Val.vint 25), some (Val.vint 30)]
      (by decide) rfl (by decide) rfl).1⟩

/-! ## Claim C9: hyperedge building is order-invariant and deduplicating -/

lemma hyperedgeFold_none {dc : DC} {row : List (String × Val)} {key : Int}
    {table target : String} (seen : List (Finset Cell × List Cell))
    (h : dcTailCells dc row key table target = none) :
    hyperedgeFold seen dc row key table target = seen := by
  simp only [hyperedgeFold, h]

lemma hyperedgeFold_some_mem {dc : DC} {row : List (String × Val)} {key : Int}
    {table target : String} {cells : List Cell}
    (seen : List (Finset Cell × List Cell))
    (h : dcTailCells dc row key table target = some cells)
    (hmem : cells.toFinset ∈ seen.map Prod.fst) :
    hyperedgeFold seen dc row key table target = seen := by
  simp only [hyperedgeFold, h]
  rw [if_pos hmem]

lemma hyperedgeFold_some_new {dc : DC} {row : List (String × Val)} {key : Int}
    {table target : String} {cells : List Cell}
    (seen : List (Finset Cell × List Cell))
    (h : dcTailCells dc row key table target = some cells)
    (hmem : cells.toFinset ∉ seen.map Prod.fst) :
    hyperedgeFold seen dc row key table target = seen ++ [(cells.toFinset, cells)] := by
  simp only [hyperedgeFold, h]
  rw [if_neg hmem]

lemma hyperedgeFold_fst_mem (row : List (String × Val)) (key : Int)
    (table : String) (target : String) :
    ∀ (dcs : List DC) (seen : List (Finset Cell × List Cell)) (ks : Finset Cell),
      (ks ∈ (dcs.foldl (fun s dc => hyperedgeFold s dc row key table target)
          seen).map Prod.fst) ↔
        ks ∈ seen.map Prod.fst ∨ ∃ dc ∈ dcs, dcKeyset dc row key table target = some ks := by
  intro dcs
  induction dcs with
  | nil => intro seen ks; simp
  | cons dc dcs ih =>
    intro seen ks
    rw [List.foldl_cons, ih]
    cases hdc : dcTailCells dc row key table target with
    | none =>
      rw [hyperedgeFold_none seen hdc]
      simp only [List.mem_cons]
      constructor
      · rintro (hs | ⟨dc2, hdc2, hk⟩)
        · exact Or.inl hs
        · exact Or.inr ⟨dc2, Or.inr hdc2, hk⟩
      · rintro (hs | ⟨dc2, rfl | hdc2, hk⟩)
        · exact Or.inl hs
        · rw [dcKeyset, hdc] at hk; cases hk
        · exact Or.inr ⟨dc2, hdc2, hk⟩
    | some cells =>
      by_cases hmem : cells.toFinset ∈ seen.map Prod.fst
      · rw [hyperedgeFold_some_mem seen hdc hmem]
        constructor
        · rintro (hs | ⟨dc2, hdc2, hk⟩)
          · exact Or.inl hs
          · exact Or.inr ⟨dc2, List.mem_cons_of_mem dc hdc2, hk⟩
        · rintro (hs | ⟨dc2, hdc2, hk⟩)
          · exact Or.inl hs
          · rcases List.mem_cons.mp hdc2 with rfl | hdc3
            · rw [dcKeyset, hdc] at hk
              cases hk
              exact Or.inl hmem
            · exact Or.inr ⟨dc2, hdc3, hk⟩
      · rw [hyperedgeFold_some_new seen hdc hmem]
        simp only [List.map_append, List.map_cons, List.map_nil, List.mem_append,
          List.mem_singleton, List.mem_cons]
        constructor
        · rintro ((hs | rfl | h0) | ⟨dc2, hdc2, hk⟩)
          · exact Or.inl hs
          · exact Or.inr ⟨dc, Or.inl rfl, by rw [dcKeyset, hdc]; rfl⟩
          · cases h0
          · exact Or.inr ⟨dc2, Or.inr hdc2, hk⟩
        · rintro (hs | ⟨dc2, rfl | hdc3, hk⟩)
          · exact Or.inl (Or.inl hs)
          · rw [dcKeyset, hdc] at hk
            cases hk
            exact Or.inl (Or.inr (Or.inl rfl))
          · exact Or.inr ⟨dc2, hdc3, hk⟩

lemma hyperedgeFold_snd_inv (row : List (String × Val)) (key : Int)
    (table : String) (target : String) :
    ∀ (dcs : List DC) (seen : List (Finset Cell × List Cell)),
      (∀ p ∈ seen, p.1 = p.2.toFinset) →
      ∀ p ∈ dcs.foldl (fun s dc => hyperedgeFold s dc row key table target) seen,
        p.1 = p.2.toFinset := by
  intro dcs
  induction dcs with
  | nil => intro seen hinv; exact hinv
  | cons dc dcs ih =>
    intro seen hinv
    rw [List.foldl_cons]
    apply ih
    cases hdc : dcTailCells dc row key table target with
    | none => rw [hyperedgeFold_none seen hdc]; exact hinv
    | some cells =>
      by_cases hmem : cells.toFinset ∈ seen.map Prod.fst
      · rw [hyperedgeFold_some_mem seen hdc hmem]; exact hinv
      · rw [hyperedgeFold_some_new seen hdc hmem]
        intro p hp
        rcases List.mem_append.mp hp with hp1 | hp2
        · exact hinv p hp1
        · rw [List.mem_singleton.mp hp2]

lemma hyperedgeFold_nodup (row : List (String × Val)) (key : Int)
    (table : String) (target : String) :
    ∀ (dcs : List DC) (seen : List (Finset Cell × List Cell)),
      (seen.map Prod.fst).Nodup →
      ((dcs.foldl (fun s dc => hyperedgeFold s dc row key table target)
          seen).map Prod.fst).Nodup := by
  intro dcs
  induction dcs with
  | nil => intro seen hnd; exact hnd
  | cons dc dcs ih =>
    intro seen hnd
    rw [List.foldl_cons]
    apply ih
    cases hdc : dcTailCells dc row key table target with
    | none => rw [hyperedgeFold_none seen hdc]; exact hnd
    | some cells =>
      by_cases hmem : cells.toFinset ∈ seen.map Prod.fst
      · rw [hyperedgeFold_some_mem seen hdc hmem]; exact hnd
      · rw [hyperedgeFold_some_new seen hdc hmem]
        rw [List.map_append]
        exact List.Nodup.append hnd (List.nodup_singleton _)
          (by simpa using fun h => hmem h)

lemma build_hyperedges_keysets (dcs : List DC) (row : List (String × Val))
    (key : Int) (table : String) (target : String) :
    (build_hyperedges dcs row key table target).map List.toFinset =
      (dcs.foldl (fun s dc => hyperedgeFold s dc row key table target) []).map Prod.fst := by
  unfold build_hyperedges
  rw [List.map_map]
  apply List.map_congr_left
  intro p hp
  exact (hyperedgeFold_snd_inv row key table target dcs [] (by simp) p hp).symm

/-- Claim C9: build_hyperedges is deterministic and idempotent up to DC
iteration order: the set of frozen tail-cell sets it produces is invariant
under permutation of the denial-constraint list, and the produced keysets are
pairwise distinct (two DCs with identical tail-cell sets collapse to one
hyperedge). -/
theorem build_hyperedges_perm_invariant
    (dcs1 dcs2 : List DC) (row : List (String × Val)) (key : Int)
    (table : String) (target : String) (hperm : dcs1.Perm dcs2) :
    ((build_hyperedges dcs1 row key table target).map List.toFinset).toFinset =
      ((build_hyperedges dcs2 row key table target).map List.toFinset).toFinset ∧
    ((build_hyperedges dcs1 row key table target).map List.toFinset).Nodup := by
  constructor
  · ext ks
    rw [List.mem_toFinset, List.mem_toFinset, build_hyperedges_keysets,
      build_hyperedges_keysets, hyperedgeFold_fst_mem, hyperedgeFold_fst_mem]
    simp only [List.map_nil, List.not_mem_nil, false_or]
    constructor
    · rintro ⟨dc, hdc, hk⟩; exact ⟨dc, hperm.mem_iff.mp hdc, hk⟩
    · rintro ⟨dc, hdc, hk⟩; exact ⟨dc, hperm.mem_iff.mpr hdc, hk⟩
  · rw [build_hyperedges_keysets]
    exact hyperedgeFold_nodup row key table target dcs1 [] (by simp)

/-- Claim C9 witness: two concrete DCs on the adult dataset, fed in both
orders, give the same keyset family. -/
theorem build_hyperedges_perm_invariant_witness :
    ((build_hyperedges
        [[("t1.education", "!=", "t2.education"),
          ("t1.education_num", "=", "t2.education_num")],
         [("t1.education", "!=", "t2.education"),
          ("t1.occupation", "=", "t2.occupation")]]
        [("education", Val.vstr "B"), ("education_num", Val.vint 13),
         ("occupation", Val.vstr "T")] 2 "adult_data" "education").map
        List.toFinset).toFinset =
      ((build_hyperedges
        [[("t1.education", "!=", "t2.education"),
          ("t1.occupation", "=", "t2.occupation")],
         [("t1.education", "!=", "t2.education"),
          ("t1.education_num", "=", "t2.education_num")]]
        [("education", Val.vstr "B"), ("education_num", Val.vint 13),
         ("occupation", Val.vstr "T")] 2 "adult_data" "education").map
        List.toFinset).toFinset :=
  (build_hyperedges_perm_invariant _ _
    [("education", Val.vstr "B"), ("education_num", Val.vint 13),
     ("occupation", Val.vstr "T")] 2 "adult_data" "education"
    (List.Perm.swap _ _ [])).1

/-! ## Claims C5 and C6: the multi-level optimizer loop -/

lemma pickAux_spec (ps : List (Int × Cell)) :
    ∀ p : Int × Cell,
      (ps.foldl (fun best x => if best.1 < x.1 then x else best) p) ∈ p :: ps ∧
      p.1 ≤ (ps.foldl (fun best x => if best.1 < x.1 then x else best) p).1 ∧
      ∀ q ∈ ps, q.1 ≤ (ps.foldl (fun best x => if best.1 < x.1 then x else best) p).1 := by
  induction ps with
  | nil => intro p; exact ⟨List.mem_singleton.mpr rfl, le_refl _, by intro q hq; cases hq⟩
  | cons x ps ih =>
    intro p
    rw [List.foldl_cons]
    obtain ⟨hmem, hle, hall⟩ := ih (if p.1 < x.1 then x else p)
    have hp2 : p.1 ≤ (if p.1 < x.1 then x else p).1 := by
      by_cases hc : p.1 < x.1
      · rw [if_pos hc]; exact le_of_lt hc
      · rw [if_neg hc]
    have hx2 : x.1 ≤ (if p.1 < x.1 then x else p).1 := by
      by_cases hc : p.1 < x.1
      · rw [if_pos hc]
      · rw [if_neg hc]; exact le_of_not_lt hc
    refine ⟨?_, le_trans hp2 hle, ?_⟩
    · rcases List.mem_cons.mp hmem with heq | hmem2
      · rw [heq]
        by_cases hc : p.1 < x.1
        · rw [if_pos hc]; exact List.mem_cons_of_mem _ (List.mem_cons_self _ _)
        · rw [if_neg hc]; exact List.mem_cons_self _ _
      · exact List.mem_cons_of_mem _ (List.mem_cons_of_mem _ hmem2)
    · intro q hq
      rcases List.mem_cons.mp hq with rfl | hq2
      · exact le_trans hx2 hle
      · exact hall q hq2

lemma pickFirstMax_spec {plans : List (Int × Cell)} {p : Int × Cell}
    (h : pickFirstMax plans = some p) :
    p ∈ plans ∧ ∀ q ∈ plans, q.1 ≤ p.1 := by
  cases plans with
  | nil => cases h
  | cons q ps =>
    cases h
    obtain ⟨hmem, hle, hall⟩ := pickAux_spec ps q
    exact ⟨hmem, by
      intro r hr
      rcases List.mem_cons.mp hr with rfl | hr2
      · exact hle
      · exact hall r hr2⟩

lemma insDescQ_mem {key : Cell → ℚ} {x y : Cell} :
    ∀ l : List Cell, x ∈ insDescQ key y l ↔ x = y ∨ x ∈ l := by
  intro l
  induction l with
  | nil => simp [insDescQ]
  | cons z zs ih =>
    unfold insDescQ
    by_cases hc : key y ≤ key z
    · rw [if_pos hc]
      simp only [List.mem_cons, ih]
      tauto
    · rw [if_neg hc]
      simp only [List.mem_cons]

lemma sortDescQ_mem {key : Cell → ℚ} {x : Cell} :
    ∀ (l acc : List Cell),
      x ∈ l.foldl (fun acc c => insDescQ key c acc) acc ↔ x ∈ acc ∨ x ∈ l := by
  intro l
  induction l with
  | nil => intro acc; simp
  | cons c cs ih =>
    intro acc
    rw [List.foldl_cons, ih, insDescQ_mem]
    simp only [List.mem_cons]
    tauto

lemma mem_sortDescQ {key : Cell → ℚ} {x : Cell} {l : List Cell} :
    x ∈ sortDescQ key l ↔ x ∈ l := by
  unfold sortDescQ
  rw [sortDescQ_mem]
  simp

lemma exists_max_key (key : Cell → ℚ) :
    ∀ l : List Cell, l ≠ [] → ∃ c ∈ l, ∀ d ∈ l, key d ≤ key c := by
  intro l
  induction l with
  | nil => intro h; cases h rfl
  | cons c cs ih =>
    intro _
    cases cs with
    | nil =>
      exact ⟨c, List.mem_cons_self _ _, by
        intro d hd
        rcases List.mem_cons.mp hd with rfl | h0
        · exact le_refl _
        · cases h0⟩
    | cons c2 cs2 =>
      obtain ⟨m, hm, hmax⟩ := ih (by simp)
      by_cases hc : key c ≤ key m
      · refine ⟨m, List.mem_cons_of_mem _ hm, ?_⟩
        intro d hd
        rcases List.mem_cons.mp hd with rfl | hd2
        · exact hc
        · exact hmax d hd2
      · refine ⟨c, List.mem_cons_self _ _, ?_⟩
        intro d hd
        rcases List.mem_cons.mp hd with rfl | hd2
        · exact le_refl _
        · exact le_trans (hmax d hd2) (le_of_not_le hc)

lemma list_sum_le_card_mul (A : List ℚ) (b : ℚ) (h : ∀ a ∈ A, a ≤ b) :
    A.sum ≤ (A.length : ℚ) * b := by
  induction A with
  | nil => simp
  | cons a tl ih =>
    have ha : a ≤ b := h a (List.mem_cons_self _ _)
    have htl : tl.sum ≤ (tl.length : ℚ) * b := ih (fun x hx => h x (List.mem_cons_of_mem _ hx))
    rw [List.sum_cons, List.length_cons]
    push_cast
    linarith

lemma list_sum_cross (A : List ℚ) :
    ∀ B : List ℚ, (∀ a ∈ A, ∀ b ∈ B, a ≤ b) →
      A.sum * (B.length : ℚ) ≤ B.sum * (A.length : ℚ) := by
  intro B
  induction B with
  | nil => intro _; simp
  | cons b B2 ih =>
    intro h
    have h1 : A.sum * (B2.length : ℚ) ≤ B2.sum * (A.length : ℚ) :=
      ih (fun a ha bb hbb => h a ha bb (List.mem_cons_of_mem _ hbb))
    have h2 : A.sum ≤ (A.length : ℚ) * b :=
      list_sum_le_card_mul A b (fun a ha => h a ha b (List.mem_cons_self _ _))
    rw [List.sum_cons, List.length_cons]
    push_cast
    nlinarith

lemma mean_le_mean_append (A B : List ℚ) (hA : A ≠ []) (hB : B ≠ [])
    (h : ∀ a ∈ A, ∀ b ∈ B, a ≤ b) :
    A.sum / (A.length : ℚ) ≤ (A ++ B).sum / ((A ++ B).length : ℚ) := by
  have hAl : (0 : ℚ) < A.length := by
    exact_mod_cast List.length_pos.mpr hA
  have hBl : (0 : ℚ) < B.length := by
    exact_mod_cast List.length_pos.mpr hB
  rw [List.sum_append, List.length_append]
  rw [div_le_div_iff hAl (by push_cast; linarith)]
  have := list_sum_cross A B h
  push_cast
  nlinarith

lemma list_mean_le_one (R : List ℚ) (h1 : ∀ x ∈ R, x ≤ 1) :
    R.sum / (R.length : ℚ) ≤ 1 := by
  cases hR : R with
  | nil => simp
  | cons x xs =>
    rw [← hR]
    have hl : (0 : ℚ) < R.length := by
      rw [hR]
      exact_mod_cast Nat.succ_pos _
    rw [div_le_one hl]
    have := list_sum_le_card_mul R 1 h1
    linarith

lemma list_mean_nonneg (R : List ℚ) (h0 : ∀ x ∈ R, 0 ≤ x) :
    0 ≤ R.sum / (R.length : ℚ) := by
  apply div_nonneg
  · exact List.sum_nonneg h0
  · positivity

lemma pyInt_of_nonneg {q : ℚ} (h : 0 ≤ q) : pyInt q = ⌊q⌋ := if_pos h

lemma pyInt_mono {q1 q2 : ℚ} (h0 : 0 ≤ q1) (h : q1 ≤ q2) : pyInt q1 ≤ pyInt q2 := by
  rw [pyInt_of_nonneg h0, pyInt_of_nonneg (le_trans h0 h)]
  exact Int.floor_le_floor h

lemma pyInt_le_int {q : ℚ} {n : Int} (h0 : 0 ≤ q) (h : q ≤ (n : ℚ)) : pyInt q ≤ n := by
  rw [pyInt_of_nonneg h0]
  have := Int.floor_le_floor h
  rwa [Int.floor_intCast] at this

lemma active_sub_constraint {cfg : OptConfig} {delset : List Cell} {c : Cell}
    (h : c ∈ activeCells cfg delset) : c ∈ cfg.constraintCells :=
  (List.mem_filter.mp h).1

lemma cds_le_orig (cfg : OptConfig) (delset : List Cell)
    (hrho : ∀ c ∈ cfg.constraintCells, 0 ≤ cfg.rho c ∧ cfg.rho c ≤ 1)
    (horig : 1 ≤ cfg.originalDomainSize) :
    computeDomainSize cfg delset ≤ cfg.originalDomainSize := by
  unfold computeDomainSize
  cases hR : (activeCells cfg delset).map cfg.rho with
  | nil => simp
  | cons r rs =>
    rw [← hR]
    rw [if_neg (by rw [hR]; simp)]
    have hmem : ∀ x ∈ (activeCells cfg delset).map cfg.rho, 0 ≤ x ∧ x ≤ 1 := by
      intro x hx
      obtain ⟨c, hc, rfl⟩ := List.mem_map.mp hx
      exact hrho c (active_sub_constraint hc)
    have havg1 : ((activeCells cfg delset).map cfg.rho).sum /
        (((activeCells cfg delset).map cfg.rho).length : ℚ) ≤ 1 :=
      list_mean_le_one _ (fun x hx => (hmem x hx).2)
    have havg0 : 0 ≤ ((activeCells cfg delset).map cfg.rho).sum /
        (((activeCells cfg delset).map cfg.rho).length : ℚ) :=
      list_mean_nonneg _ (fun x hx => (hmem x hx).1)
    apply max_le horig
    apply pyInt_le_int
    · have : (0 : ℚ) ≤ (cfg.originalDomainSize : ℚ) := by
        exact_mod_cast le_trans (by norm_num) horig
      nlinarith
    · have h0 : (0 : ℚ) ≤ (cfg.originalDomainSize : ℚ) := by
        exact_mod_cast le_trans (by norm_num) horig
      nlinarith

lemma activeCells_insert (cfg : OptConfig) (delset : List Cell) (w : Cell) :
    activeCells cfg (w :: delset) =
      (activeCells cfg delset).filter (fun c => decide (¬ c = w)) := by
  unfold activeCells
  rw [List.filter_filter]
  apply List.filter_congr
  intro c _
  by_cases hc : c = w <;> by_cases hd : c ∈ delset <;>
    simp [hc, hd, List.mem_cons]

lemma cds_grow (cfg : OptConfig) (delset : List Cell)
    (hrho : ∀ c ∈ cfg.constraintCells, 0 ≤ cfg.rho c ∧ cfg.rho c ≤ 1)
    (horig : 1 ≤ cfg.originalDomainSize)
    (hne : activeCells cfg delset ≠ []) :
    ∃ c ∈ activeCells cfg delset,
      computeDomainSize cfg delset ≤ computeDomainSize cfg (c :: delset) := by
  obtain ⟨m, hm, hmax⟩ := exists_max_key cfg.rho (activeCells cfg delset) hne
  refine ⟨m, hm, ?_⟩
  have hA : activeCells cfg (m :: delset) =
      (activeCells cfg delset).filter (fun c => decide (¬ c = m)) :=
    activeCells_insert cfg delset m
  set R : List Cell := activeCells cfg delset with hR
  set A : List Cell := R.filter (fun c => decide (¬ c = m)) with hAdef
  set B : List Cell := R.filter (fun c => decide (c = m)) with hBdef
  have horigq : (0 : ℚ) ≤ (cfg.originalDomainSize : ℚ) := by
    exact_mod_cast le_trans (by norm_num) horig
  have hbounds : ∀ x ∈ R.map cfg.rho, 0 ≤ x ∧ x ≤ 1 := by
    intro x hx
    obtain ⟨c, hc, rfl⟩ := List.mem_map.mp hx
    exact hrho c (active_sub_constraint hc)
  have havg1 : (R.map cfg.rho).sum / ((R.map cfg.rho).length : ℚ) ≤ 1 :=
    list_mean_le_one _ (fun x hx => (hbounds x hx).2)
  by_cases hAe : A = []
  · have hnew : computeDomainSize cfg (m :: delset) = cfg.originalDomainSize := by
      unfold computeDomainSize
      rw [hA, hAe]
      simp
    rw [hnew]
    exact cds_le_orig cfg delset hrho horig
  · have hBne : B ≠ [] :=
      List.ne_nil_of_mem (List.mem_filter.mpr ⟨hm, by simp⟩)
    have hperm : List.Perm (A ++ B) R := by
      have hBeq : B = R.filter (fun c => !(decide (¬ c = m))) := by
        rw [hBdef]
        apply List.filter_congr
        intro c _
        by_cases hc : c = m <;> simp [hc]
      rw [hBeq, hAdef]
      exact List.filter_append_perm _ R
    have hRAne : A.map cfg.rho ≠ [] := by
      cases hAv : A with
      | nil => exact absurd hAv hAe
      | cons x xs => simp [hAv]
    have hBmne : B.map cfg.rho ≠ [] := by
      cases hBv : B with
      | nil => exact absurd hBv hBne
      | cons x xs => simp [hBv]
    have hcross : ∀ a2 ∈ A.map cfg.rho, ∀ b2 ∈ B.map cfg.rho, a2 ≤ b2 := by
      intro a2 ha2 b2 hb2
      obtain ⟨ca, hca, rfl⟩ := List.mem_map.mp ha2
      obtain ⟨cb, hcb, rfl⟩ := List.mem_map.mp hb2
      have hcbm : cb = m := by
        have := (List.mem_filter.mp hcb).2
        simpa using this
      rw [hcbm]
      exact hmax ca (List.mem_filter.mp hca).1
    have hmean : (A.map cfg.rho).sum / ((A.map cfg.rho).length : ℚ) ≤
        (R.map cfg.rho).sum / ((R.map cfg.rho).length : ℚ) := by
      have step := mean_le_mean_append (A.map cfg.rho) (B.map cfg.rho) hRAne hBmne hcross
      have hpermmap : List.Perm (A.map cfg.rho ++ B.map cfg.rho) (R.map cfg.rho) := by
        rw [← List.map_append]
        exact hperm.map cfg.rho
      rw [hpermmap.sum_eq, hpermmap.length_eq] at step
      exact step
    have hmeanA0 : 0 ≤ (A.map cfg.rho).sum / ((A.map cfg.rho).length : ℚ) := by
      apply list_mean_nonneg
      intro x hx
      obtain ⟨c, hc, rfl⟩ := List.mem_map.mp hx
      exact (hrho c (active_sub_constraint (List.mem_filter.mp hc).1)).1
    have hRmne : R.map cfg.rho ≠ [] := by
      cases hRv : R with
      | nil => exact absurd hRv hne
      | cons x xs => simp [hRv]
    unfold computeDomainSize
    rw [hA]
    rw [if_neg hRmne, if_neg hRAne]
    apply max_le_max (le_refl (1 : Int))
    apply pyInt_mono
    · nlinarith
    · apply mul_le_mul_of_nonneg_left _ horigq
      linarith

lemma optStep_inv {cfg : OptConfig} {st st2 : OptState}
    (h : optStep cfg st = some st2) :
    ∃ bw : Int × Cell, pickFirstMax (roundPlans cfg st) = some bw ∧
      st2 = ⟨bw.2 :: st.delset, computeDomainSize cfg (bw.2 :: st.delset)⟩ ∧
      activeCells cfg st.delset ≠ [] ∧ checkPrivacyThreshold cfg st = false := by
  unfold optStep at h
  by_cases h1 : activeCells cfg st.delset = []
  · rw [if_pos h1] at h; cases h
  · rw [if_neg h1] at h
    cases h2 : checkPrivacyThreshold cfg st with
    | true => rw [h2] at h; simp at h
    | false =>
      rw [h2] at h
      simp only [Bool.false_eq_true, if_false] at h
      cases hpick : pickFirstMax (roundPlans cfg st) with
      | none => rw [hpick] at h; cases h
      | some bw =>
        rw [hpick] at h
        cases h
        exact ⟨bw, rfl, rfl, h1, rfl⟩

lemma plans_mem_benefit {cfg : OptConfig} {st : OptState} {bw : Int × Cell}
    (h : bw ∈ roundPlans cfg st) :
    bw.2 ∈ activeCells cfg st.delset ∧ bw.1 = benefitOf cfg st bw.2 := by
  unfold roundPlans at h
  obtain ⟨c, hc, heq⟩ := List.mem_map.mp h
  cases heq
  exact ⟨mem_sortDescQ.mp hc, rfl⟩

lemma benefit_mem_plans {cfg : OptConfig} {st : OptState} {c : Cell}
    (h : c ∈ activeCells cfg st.delset) :
    (benefitOf cfg st c, c) ∈ roundPlans cfg st := by
  unfold roundPlans
  exact List.mem_map.mpr ⟨c, mem_sortDescQ.mpr h, rfl⟩

lemma optStep_mono {cfg : OptConfig} {st st2 : OptState}
    (hrho : ∀ c ∈ cfg.constraintCells, 0 ≤ cfg.rho c ∧ cfg.rho c ≤ 1)
    (horig : 1 ≤ cfg.originalDomainSize)
    (hinv : st.currentDomainSize = computeDomainSize cfg st.delset)
    (h : optStep cfg st = some st2) :
    (∀ x ∈ st.delset, x ∈ st2.delset) ∧
    st.currentDomainSize ≤ st2.currentDomainSize ∧
    st2.currentDomainSize = computeDomainSize cfg st2.delset := by
  obtain ⟨bw, hpick, hst2, hne, _⟩ := optStep_inv h
  obtain ⟨hmem, hmax⟩ := pickFirstMax_spec hpick
  obtain ⟨hw_active, hw_benefit⟩ := plans_mem_benefit hmem
  obtain ⟨c, hc, hgrow⟩ := cds_grow cfg st.delset hrho horig hne
  have hcb : (benefitOf cfg st c, c) ∈ roundPlans cfg st := benefit_mem_plans hc
  have hble : benefitOf cfg st c ≤ bw.1 := hmax _ hcb
  rw [hw_benefit] at hble
  unfold benefitOf at hble
  have hkey : computeDomainSize cfg st.delset ≤ computeDomainSize cfg (bw.2 :: st.delset) := by
    have := hgrow
    omega
  constructor
  · intro x hx
    rw [hst2]
    exact List.mem_cons_of_mem _ hx
  · rw [hst2]
    constructor
    · rw [hinv]
      exact hkey
    · rfl

/-- Claim C5 amended: whenever a round commits (optStep returns a successor
state), the committed candidate attains the maximum what-if benefit among the
round's plans, and it is committed unconditionally - even when that maximum
benefit is zero or negative.  The optimizer stops only when no constraint is
active, the privacy threshold is met, or the plan list is empty; there is no
positive-benefit guard. -/
theorem optimizer_commits_max_benefit (cfg : OptConfig) (st st2 : OptState)
    (bw : Int × Cell)
    (h : optStep cfg st = some st2)
    (hpick : pickFirstMax (roundPlans cfg st) = some bw) :
    bw.2 ∈ activeCells cfg st.delset ∧ bw.1 = benefitOf cfg st bw.2 ∧
    (∀ q ∈ roundPlans cfg st, q.1 ≤ bw.1) ∧
    st2 = ⟨bw.2 :: st.delset, computeDomainSize cfg (bw.2 :: st.delset)⟩ := by
  obtain ⟨bw2, hpick2, hst2, _, _⟩ := optStep_inv h
  rw [hpick] at hpick2
  cases hpick2
  obtain ⟨hmem, hmax⟩ := pickFirstMax_spec hpick
  obtain ⟨hact, hben⟩ := plans_mem_benefit hmem
  exact ⟨hact, hben, hmax, hst2⟩

/-- Claim C6: across optimizer rounds the deletion set only grows and the
current domain size is non-decreasing: the run trace is a chain under
(subset, ≤), given that the restriction factors of the constraint cells lie
in [0, 1], the original domain size is at least 1, and the cached size of the
initial state is consistent. -/
theorem optimizer_monotone (cfg : OptConfig) (st : OptState) (n : Nat)
    (hrho : ∀ c ∈ cfg.constraintCells, 0 ≤ cfg.rho c ∧ cfg.rho c ≤ 1)
    (horig : 1 ≤ cfg.originalDomainSize)
    (hinv : st.currentDomainSize = computeDomainSize cfg st.delset) :
    List.Chain' (fun s s2 => (∀ x ∈ s.delset, x ∈ s2.delset) ∧
      s.currentDomainSize ≤ s2.currentDomainSize) (runOpt cfg n st) := by
  induction n generalizing st with
  | zero => simp [runOpt]
  | succ n ih =>
    unfold runOpt
    cases hstep : optStep cfg st with
    | none => simp
    | some st2 =>
      obtain ⟨hsub, hle, hinv2⟩ := optStep_mono hrho horig hinv hstep
      have htail := ih st2 hinv2
      cases n with
      | zero => exact List.chain'_pair.mpr ⟨hsub, hle⟩
      | succ n2 =>
        have hshape : runOpt cfg (n2 + 1) st2 =
            st2 :: (match optStep cfg st2 with
                    | none => []
                    | some st3 => runOpt cfg n2 st3) := rfl
        show List.Chain' (fun s s2 => (∀ x ∈ s.delset, x ∈ s2.delset) ∧
          s.currentDomainSize ≤ s2.currentDomainSize) (st :: runOpt cfg (n2 + 1) st2)
        rw [hshape] at htail ⊢
        exact List.Chain'.cons ⟨hsub, hle⟩ htail

/-! Concrete evaluations of the optimizer fixtures.  Rational arithmetic is
not kernel-reducible, so the evaluations go through norm_num. -/

lemma cds_fix0 : computeDomainSize cfg0 [tCell] = 5 := by
  simp +decide only [computeDomainSize, activeCells, cfg0, tCell, cCell1, cCell2, pyInt,
    List.filter, List.map, List.sum, List.length]
  norm_num

lemma cds_fix1 : computeDomainSize cfg0 [cCell1, tCell] = 5 := by
  simp +decide only [computeDomainSize, activeCells, cfg0, tCell, cCell1, cCell2, pyInt,
    List.filter, List.map, List.sum, List.length]
  norm_num

lemma benefit_fix1 : benefitOf cfg0 st0 cCell1 = 0 := by
  simp +decide only [benefitOf, computeDomainSize, activeCells, cfg0, st0, tCell, cCell1,
    cCell2, pyInt, List.filter, List.map, List.sum, List.length]
  norm_num

lemma benefit_fix2 : benefitOf cfg0 st0 cCell2 = 0 := by
  simp +decide only [benefitOf, computeDomainSize, activeCells, cfg0, st0, tCell, cCell1,
    cCell2, pyInt, List.filter, List.map, List.sum, List.length]
  norm_num

lemma sorted_fix : sortDescQ cfg0.rho [cCell1, cCell2] = [cCell1, cCell2] := by
  simp +decide only [sortDescQ, insDescQ, List.foldl, cfg0, cCell1, cCell2]
  norm_num

lemma plans_fix : roundPlans cfg0 st0 = [(0, cCell1), (0, cCell2)] := by
  unfold roundPlans
  rw [show activeCells cfg0 st0.delset = [cCell1, cCell2] from rfl, sorted_fix]
  simp only [List.map_cons, List.map_nil]
  rw [benefit_fix1, benefit_fix2]

lemma pick_fix : pickFirstMax (roundPlans cfg0 st0) = some (0, cCell1) := by
  rw [plans_fix]
  rfl

lemma thresh_fix : checkPrivacyThreshold cfg0 st0 = false := by
  simp only [checkPrivacyThreshold, cfg0, st0]
  norm_num

lemma step_fix : optStep cfg0 st0 = some ⟨[cCell1, tCell], 5⟩ := by
  unfold optStep
  rw [if_neg (show ¬ activeCells cfg0 st0.delset = [] by decide)]
  rw [thresh_fix]
  simp only [Bool.false_eq_true, if_false]
  rw [pick_fix]
  show some (⟨cCell1 :: st0.delset, computeDomainSize cfg0 (cCell1 :: st0.delset)⟩ : OptState) =
    some ⟨[cCell1, tCell], 5⟩
  rw [show (cCell1 :: st0.delset) = [cCell1, tCell] from rfl, cds_fix1]

lemma hrho_fix : ∀ c ∈ cfg0.constraintCells, 0 ≤ cfg0.rho c ∧ cfg0.rho c ≤ 1 := by
  intro c hc
  rcases List.mem_cons.mp hc with rfl | hc2
  · constructor <;> · simp +decide only [cfg0]; norm_num
  · rcases List.mem_cons.mp hc2 with rfl | hc3
    · constructor <;> · simp +decide only [cfg0]; norm_num
    · cases hc3

/-- Claim C5 counterexample: in the fixture round every candidate has what-if
benefit exactly 0 (no strictly positive benefit exists), yet optStep commits
cCell1 into the deletion set instead of stopping, refuting the claim that a
candidate with non-positive benefit is never added. -/
theorem optimizer_commits_nonpositive_benefit :
    benefitOf cfg0 st0 cCell1 = 0 ∧ benefitOf cfg0 st0 cCell2 = 0 ∧
    optStep cfg0 st0 = some ⟨[cCell1, tCell], 5⟩ ∧
    cCell1 ∈ ([cCell1, tCell] : List Cell) :=
  ⟨benefit_fix1, benefit_fix2, step_fix, List.mem_cons_self _ _⟩

/-- Claim C5 witness: the committed fixture candidate is active and attains
the maximal benefit of its round. -/
theorem optimizer_commits_max_benefit_witness :
    optStep cfg0 st0 = some ⟨[cCell1, tCell], 5⟩ ∧
    pickFirstMax (roundPlans cfg0 st0) = some (0, cCell1) ∧
    cCell1 ∈ activeCells cfg0 st0.delset :=
  ⟨step_fix, pick_fix,
    (optimizer_commits_max_benefit cfg0 st0 ⟨[cCell1, tCell], 5⟩ (0, cCell1)
      step_fix pick_fix).1⟩

/-- Claim C6 witness: the fixture run is a monotone chain. -/
theorem optimizer_monotone_witness :
    (∀ c ∈ cfg0.constraintCells, 0 ≤ cfg0.rho c ∧ cfg0.rho c ≤ 1) ∧
    (1 : Int) ≤ cfg0.originalDomainSize ∧
    List.Chain' (fun s s2 => (∀ x ∈ s.delset, x ∈ s2.delset) ∧
      s.currentDomainSize ≤ s2.currentDomainSize) (runOpt cfg0 3 st0) :=
  ⟨hrho_fix, by norm_num [cfg0],
    optimizer_monotone cfg0 st0 3 hrho_fix (by norm_num [cfg0]) cds_fix0.symm⟩

/-! ## Claim C7: termination of the tree builder -/

lemma lookup_cons_self {β : Type} (k : String) (b : β) (es : List (String × β)) :
    List.lookup k ((k, b) :: es) = some b := by
  simp [List.lookup]

lemma lookup_cons_ne {β : Type} {x k : String} (b : β) (es : List (String × β))
    (h : ¬ x = k) : List.lookup x ((k, b) :: es) = List.lookup x es := by
  simp [List.lookup, beq_eq_false_iff_ne.mpr h]

lemma nmLookup_cons (a : String) (n : GNode) (nm : NodeMap) (x : String) :
    nmLookup ((a, n) :: nm) x = if x = a then some n else nmLookup nm x := by
  by_cases h : x = a
  · rw [if_pos h, h]
    exact lookup_cons_self a n nm
  · rw [if_neg h]
    exact lookup_cons_ne n nm h

lemma nmUpdate_lookup_isSome (a : String) (n : GNode) (x : String) :
    ∀ nm : NodeMap, (nmLookup (nmUpdate nm a n) x).isSome = (nmLookup nm x).isSome := by
  intro nm
  induction nm with
  | nil => rfl
  | cons p nm ih =>
    obtain ⟨k, w⟩ := p
    unfold nmUpdate
    rw [List.map_cons]
    by_cases h : k = a
    · simp only [if_pos h]
      by_cases hx : x = k
      · rw [show nmLookup ((a, n) :: List.map (fun p => if p.1 = a then (a, n) else p) nm) x =
            some n by unfold nmLookup; rw [hx, h]; exact lookup_cons_self a n _]
        rw [show nmLookup ((k, w) :: nm) x = some w by
            unfold nmLookup; rw [hx]; exact lookup_cons_self k w nm]
        rfl
      · rw [show nmLookup ((a, n) :: List.map (fun p => if p.1 = a then (a, n) else p) nm) x =
            nmLookup (nmUpdate nm a n) x by
            unfold nmLookup nmUpdate; exact lookup_cons_ne n _ (h ▸ hx)]
        rw [show nmLookup ((k, w) :: nm) x = nmLookup nm x by
            unfold nmLookup; exact lookup_cons_ne w nm hx]
        exact ih
    · simp only [if_neg h]
      by_cases hx : x = k
      · rw [show nmLookup ((k, w) :: List.map (fun p => if p.1 = a then (a, n) else p) nm) x =
            some w by unfold nmLookup; rw [hx]; exact lookup_cons_self k w _]
        rw [show nmLookup ((k, w) :: nm) x = some w by
            unfold nmLookup; rw [hx]; exact lookup_cons_self k w nm]
      · rw [show nmLookup ((k, w) :: List.map (fun p => if p.1 = a then (a, n) else p) nm) x =
            nmLookup (nmUpdate nm a n) x by
            unfold nmLookup nmUpdate; exact lookup_cons_ne w _ hx]
        rw [show nmLookup ((k, w) :: nm) x = nmLookup nm x by
            unfold nmLookup; exact lookup_cons_ne w nm hx]
        exact ih

lemma keysMono_refl (nm : NodeMap) : keysMono nm nm := fun _ h => h

lemma keysMono_trans {nm1 nm2 nm3 : NodeMap}
    (h1 : keysMono nm1 nm2) (h2 : keysMono nm2 nm3) : keysMono nm1 nm3 :=
  fun a h => h2 a (h1 a h)

lemma keysMono_cons (nm : NodeMap) (a : String) (n : GNode) :
    keysMono nm ((a, n) :: nm) := by
  intro x h
  rw [nmLookup_cons]
  by_cases hx : x = a
  · rw [if_pos hx]; rfl
  · rw [if_neg hx]; exact h

lemma keysMono_update (nm : NodeMap) (a : String) (n : GNode) :
    keysMono nm (nmUpdate nm a n) := by
  intro x h
  rw [nmUpdate_lookup_isSome]
  exact h

lemma processTails_grow
    (rec : String → List String → NodeMap → BRes (GNode × NodeMap))
    (Hg : ∀ a s nm g nm2, rec a s nm = .ok (g, nm2) → keysMono nm nm2) :
    ∀ (l : List Cell) (current snap2 : List String) (nm : NodeMap)
      (cs : List GNode) (nm2 : NodeMap),
      processTails rec current snap2 l nm = .ok (cs, nm2) → keysMono nm nm2 := by
  intro l
  induction l with
  | nil =>
    intro current snap2 nm cs nm2 h
    cases h
    exact keysMono_refl nm
  | cons tc rest ih =>
    intro current snap2 nm cs nm2 h
    unfold processTails at h
    by_cases hc : tc.attr.col ∈ current
    · rw [if_pos hc] at h
      exact ih current snap2 nm cs nm2 h
    · rw [if_neg hc] at h
      split at h
      · cases h
      · cases h
      · rename_i heq
        split at h
        · cases h
        · cases h
        · rename_i heq2
          cases h
          exact keysMono_trans (Hg _ _ _ _ _ heq) (ih _ _ _ _ _ heq2)

lemma processHEs_grow
    (rec : String → List String → NodeMap → BRes (GNode × NodeMap))
    (Hg : ∀ a s nm g nm2, rec a s nm = .ok (g, nm2) → keysMono nm nm2) :
    ∀ (hes : List (List Cell)) (current : List String) (node : GNode)
      (nm : NodeMap) (node2 : GNode) (nm2 : NodeMap),
      processHEs rec current hes node nm = .ok (node2, nm2) → keysMono nm nm2 := by
  intro hes
  induction hes with
  | nil =>
    intro current node nm node2 nm2 h
    cases h
    exact keysMono_refl nm
  | cons he rest ih =>
    intro current node nm node2 nm2 h
    unfold processHEs at h
    by_cases hc : (he.map (fun tc => tc.attr.col)).all (fun t => t ∈ current) = true
    · rw [if_pos hc] at h
      exact ih current node nm node2 nm2 h
    · rw [if_neg hc] at h
      simp only at h
      split at h
      · cases h
      · cases h
      · rename_i heq
        exact keysMono_trans
          (processTails_grow rec Hg he current _ nm _ _ heq)
          (ih _ _ _ _ _ h)

lemma recurseF_grow (row : List (String × Val)) (key : Int)
    (hmap : Cell → List (List Cell)) :
    ∀ (fuel : Nat) (attr : String) (snapshot : List String) (nm : NodeMap)
      (g : GNode) (nm2 : NodeMap),
      recurseF row key hmap fuel attr snapshot nm = .ok (g, nm2) → keysMono nm nm2 := by
  intro fuel
  induction fuel with
  | zero => intro attr snapshot nm g nm2 h; cases h
  | succ fuel ih =>
    intro attr snapshot nm g nm2 h
    unfold recurseF at h
    split at h
    · cases h
    · split at h
      · cases h
        exact keysMono_refl nm
      · simp only at h
        split at h
        · cases h
        · cases h
        · rename_i heq
          cases h
          refine keysMono_trans (keysMono_cons nm attr _)
            (keysMono_trans
              (processHEs_grow _ (fun a s nmx gx nmx2 hx => ih a s nmx gx nmx2 hx)
                _ _ _ _ _ _ heq)
              (keysMono_update _ attr _))

lemma filter_length_mono {α : Type} (p q : α → Bool) :
    ∀ l : List α, (∀ a ∈ l, q a = true → p a = true) →
      (l.filter q).length ≤ (l.filter p).length := by
  intro l
  induction l with
  | nil => intro _; exact le_refl 0
  | cons b l ih =>
    intro h
    have hrec := ih (fun a ha => h a (List.mem_cons_of_mem _ ha))
    cases hq : q b with
    | true =>
      rw [List.filter_cons_of_pos hq, List.filter_cons_of_pos (h b (List.mem_cons_self _ _) hq)]
      simpa using hrec
    | false =>
      rw [List.filter_cons_of_neg (by simp [hq])]
      cases hp : p b with
      | true =>
        rw [List.filter_cons_of_pos hp]
        simp only [List.length_cons]
        omega
      | false =>
        rw [List.filter_cons_of_neg (by simp [hp])]
        exact hrec

lemma unexpanded_mono (row : List (String × Val)) {nm nm2 : NodeMap}
    (h : keysMono nm nm2) : unexpanded row nm2 ≤ unexpanded row nm := by
  apply filter_length_mono
  intro a _ ha
  cases hsome : (nmLookup nm a).isSome with
  | false =>
    cases hv : nmLookup nm a with
    | none => rfl
    | some n => rw [hv] at hsome; cases hsome
  | true =>
    have := h a hsome
    cases hv : nmLookup nm2 a with
    | none => rw [hv] at this; cases this
    | some n => rw [hv] at ha; cases ha

lemma lookup_mem_keys {attr : String} {v : Val} :
    ∀ {row : List (String × Val)}, row.lookup attr = some v → attr ∈ row.map Prod.fst := by
  intro row
  induction row with
  | nil => intro h; cases h
  | cons p row ih =>
    obtain ⟨k, w⟩ := p
    intro h
    by_cases hc : attr = k
    · rw [List.map_cons]
      exact List.mem_cons.mpr (Or.inl hc)
    · rw [lookup_cons_ne w row hc] at h
      exact List.mem_cons_of_mem _ (ih h)

lemma filter_length_lt (p q : String → Bool) (attr : String)
    (hattr_p : p attr = true) (hattr_q : q attr = false) :
    ∀ l : List String, l.Nodup → attr ∈ l →
      (∀ a ∈ l, a ≠ attr → q a = p a) →
      (l.filter q).length < (l.filter p).length := by
  intro l
  induction l with
  | nil => intro _ hmem; cases hmem
  | cons b l ih =>
    intro hnd hmem hother
    rcases List.mem_cons.mp hmem with rfl | hmem2
    · have hattr_notin : attr ∉ l := (List.nodup_cons.mp hnd).1
      have hmono : (l.filter q).length ≤ (l.filter p).length := by
        apply filter_length_mono
        intro a ha hqa
        have hax : a ≠ attr := fun hcon => hattr_notin (hcon ▸ ha)
        rw [← hother a (List.mem_cons_of_mem _ ha) hax]
        exact hqa
      rw [List.filter_cons_of_neg (by simp [hattr_q]), List.filter_cons_of_pos hattr_p]
      simp only [List.length_cons]
      omega
    · have hb : b ≠ attr := by
        intro hcon
        rw [hcon] at hnd
        exact (List.nodup_cons.mp hnd).1 hmem2
      have hqb : q b = p b := hother b (List.mem_cons_self _ _) hb
      have hrec := ih (List.nodup_cons.mp hnd).2 hmem2
        (fun a ha hax => hother a (List.mem_cons_of_mem _ ha) hax)
      cases hp : p b with
      | true =>
        rw [List.filter_cons_of_pos (by rw [hqb]; exact hp), List.filter_cons_of_pos hp]
        simp only [List.length_cons]
        omega
      | false =>
        rw [List.filter_cons_of_neg (by simp [hqb, hp]), List.filter_cons_of_neg (by simp [hp])]
        exact hrec

lemma unexpanded_strict (row : List (String × Val)) (nm : NodeMap) (attr : String)
    (x : GNode) (hrow : attr ∈ row.map Prod.fst) (hnone : nmLookup nm attr = none) :
    unexpanded row ((attr, x) :: nm) < unexpanded row nm := by
  unfold unexpanded
  exact filter_length_lt (fun a => (nmLookup nm a).isNone)
    (fun a => (nmLookup ((attr, x) :: nm) a).isNone) attr
    (by show (nmLookup nm attr).isNone = true; rw [hnone]; rfl)
    (by show (nmLookup ((attr, x) :: nm) attr).isNone = false
        rw [nmLookup_cons, if_pos rfl]; rfl)
    _ (List.nodup_dedup _) (List.mem_dedup.mpr hrow)
    (fun a _ hax => by
      show (nmLookup ((attr, x) :: nm) a).isNone = (nmLookup nm a).isNone
      rw [nmLookup_cons, if_neg hax])

lemma processTails_nofuel (row : List (String × Val))
    (rec : String → List String → NodeMap → BRes (GNode × NodeMap)) (F : Nat)
    (Hg : ∀ a s nm g nm2, rec a s nm = .ok (g, nm2) → keysMono nm nm2)
    (Hn : ∀ a s nm, unexpanded row nm < F → rec a s nm ≠ .fuelOut) :
    ∀ (l : List Cell) (current snap2 : List String) (nm : NodeMap),
      unexpanded row nm < F → processTails rec current snap2 l nm ≠ .fuelOut := by
  intro l
  induction l with
  | nil =>
    intro current snap2 nm _ hcon
    unfold processTails at hcon
    cases hcon
  | cons tc rest ih =>
    intro current snap2 nm hlt hcon
    unfold processTails at hcon
    by_cases hc : tc.attr.col ∈ current
    · rw [if_pos hc] at hcon
      exact ih current snap2 nm hlt hcon
    · rw [if_neg hc] at hcon
      split at hcon
      · rename_i heq
        exact Hn _ _ _ hlt heq
      · cases hcon
      · rename_i heq
        have hle := unexpanded_mono row (Hg _ _ _ _ _ heq)
        split at hcon
        · rename_i heq2
          exact ih _ _ _ (lt_of_le_of_lt hle hlt) heq2
        · cases hcon
        · cases hcon

lemma processHEs_nofuel (row : List (String × Val))
    (rec : String → List String → NodeMap → BRes (GNode × NodeMap)) (F : Nat)
    (Hg : ∀ a s nm g nm2, rec a s nm = .ok (g, nm2) → keysMono nm nm2)
    (Hn : ∀ a s nm, unexpanded row nm < F → rec a s nm ≠ .fuelOut) :
    ∀ (hes : List (List Cell)) (current : List String) (node : GNode) (nm : NodeMap),
      unexpanded row nm < F → processHEs rec current hes node nm ≠ .fuelOut := by
  intro hes
  induction hes with
  | nil =>
    intro current node nm _ hcon
    unfold processHEs at hcon
    cases hcon
  | cons he rest ih =>
    intro current node nm hlt hcon
    unfold processHEs at hcon
    by_cases hc : (he.map (fun tc => tc.attr.col)).all (fun t => t ∈ current) = true
    · rw [if_pos hc] at hcon
      exact ih _ _ _ hlt hcon
    · rw [if_neg hc] at hcon
      simp only at hcon
      split at hcon
      · rename_i heq
        exact processTails_nofuel row rec F Hg Hn he _ _ nm hlt heq
      · cases hcon
      · rename_i heq
        exact ih _ _ _
          (lt_of_le_of_lt (unexpanded_mono row (processTails_grow rec Hg _ _ _ _ _ _ heq)) hlt)
          hcon

lemma recurseF_nofuel (row : List (String × Val)) (key : Int)
    (hmap : Cell → List (List Cell)) :
    ∀ (fuel : Nat) (attr : String) (snapshot : List String) (nm : NodeMap),
      unexpanded row nm < fuel →
      recurseF row key hmap fuel attr snapshot nm ≠ .fuelOut := by
  intro fuel
  induction fuel with
  | zero => intro attr snapshot nm hlt; exact absurd hlt (Nat.not_lt_zero _)
  | succ fuel ih =>
    intro attr snapshot nm hlt hcon
    unfold recurseF at hcon
    split at hcon
    · cases hcon
    · rename_i v heqrow
      split at hcon
      · cases hcon
      · rename_i heqnm
        simp only at hcon
        split at hcon
        · rename_i heq
          have hstrict := unexpanded_strict row nm attr
            (GNode.leaf ⟨⟨"adult_data", attr⟩, key, v⟩) (lookup_mem_keys heqrow) heqnm
          exact processHEs_nofuel row _ fuel
            (fun a s nmx g nmx2 hx => recurseF_grow row key hmap fuel a s nmx g nmx2 hx)
            (fun a s nmx hxl => ih a s nmx hxl)
            _ _ _ _ (by omega) heq
        · cases hcon
        · cases hcon

/-- Claim C7: the tree builder terminates on every denial-constraint
configuration, cyclic or not.  The builder never runs out of fuel once the
fuel exceeds the number of distinct row attributes: every expanding call
registers a fresh attribute in the node map before recursing (the visited
snapshot passed to children is extended with all tail attributes of the
hyperedge, fully-visited hyperedges are skipped), so the recursion depth is
bounded by the number of attributes. -/
theorem buildTree_terminates (fuel : Nat) (row : List (String × Val)) (key : Int)
    (startAttr : String) (hmap : Cell → List (List Cell))
    (hfuel : ((row.map Prod.fst).dedup).length < fuel) :
    build_hypergraph_tree_with_costs fuel row key startAttr hmap ≠ .fuelOut := by
  apply recurseF_nofuel
  calc unexpanded row [] ≤ ((row.map Prod.fst).dedup).length :=
        List.length_filter_le _ _
    _ < fuel := hfuel

/-- Claim C7 witness: the fixture build (a cyclic-free 3-attribute row with
two hyperedges) terminates with fuel 5 > 3. -/
theorem buildTree_terminates_witness :
    ((row0.map Prod.fst).dedup).length < 5 ∧
    build_hypergraph_tree_with_costs 5 row0 2 "A" hmap0 ≠ BRes.fuelOut :=
  ⟨by decide, buildTree_terminates 5 row0 2 "A" hmap0 (by decide)⟩

/-! ## Claims C1 and C4: node costs and min_cell annotations of built trees -/

lemma addBranch_cell (n : GNode) (he : List Cell) (cs : List GNode) :
    (n.addBranch he cs).cell = n.cell := by
  unfold GNode.addBranch
  split
  · rfl
  · split <;> rfl

lemma addBranch_branches (n : GNode) (he : List Cell) (cs : List GNode) :
    (n.addBranch he cs).branches = n.branches ++
      [(he,
        (match minCostChild cs with
         | none => none
         | some mc =>
           if ¬ n.isCostComputed = true ∨ 1 + mc.cost < n.cost
           then some mc.cell else none), cs)] := by
  unfold GNode.addBranch
  split
  · rfl
  · split <;> rfl

lemma gfoldl_pick_spec (cs : List GNode) :
    ∀ m : GNode,
      (cs.foldl (fun m x => if x.cost < m.cost then x else m) m) ∈ m :: cs ∧
      (cs.foldl (fun m x => if x.cost < m.cost then x else m) m).cost ≤ m.cost ∧
      ∀ x ∈ cs, (cs.foldl (fun m x => if x.cost < m.cost then x else m) m).cost ≤ x.cost := by
  induction cs with
  | nil =>
    intro m
    exact ⟨List.mem_singleton.mpr rfl, le_refl _, by intro x hx; cases hx⟩
  | cons y ys ih =>
    intro m
    rw [List.foldl_cons]
    obtain ⟨hmem, hle, hall⟩ := ih (if y.cost < m.cost then y else m)
    have hm2 : (if y.cost < m.cost then y else m).cost ≤ m.cost := by
      by_cases hc : y.cost < m.cost
      · rw [if_pos hc]; exact le_of_lt hc
      · rw [if_neg hc]
    have hy2 : (if y.cost < m.cost then y else m).cost ≤ y.cost := by
      by_cases hc : y.cost < m.cost
      · rw [if_pos hc]
      · rw [if_neg hc]; exact le_of_not_lt hc
    refine ⟨?_, le_trans hle hm2, ?_⟩
    · rcases List.mem_cons.mp hmem with heq | hmem2
      · rw [heq]
        by_cases hc : y.cost < m.cost
        · rw [if_pos hc]; exact List.mem_cons_of_mem _ (List.mem_cons_self _ _)
        · rw [if_neg hc]; exact List.mem_cons_self _ _
      · exact List.mem_cons_of_mem _ (List.mem_cons_of_mem _ hmem2)
    · intro x hx
      rcases List.mem_cons.mp hx with rfl | hx2
      · exact le_trans hle hy2
      · exact hall x hx2

lemma minCostChild_spec {cs : List GNode} {mc : GNode}
    (h : minCostChild cs = some mc) :
    mc ∈ cs ∧ ∀ x ∈ cs, mc.cost ≤ x.cost := by
  cases cs with
  | nil => cases h
  | cons c rest =>
    unfold minCostChild at h
    cases h
    obtain ⟨hmem, hle, hall⟩ := gfoldl_pick_spec rest c
    refine ⟨hmem, ?_⟩
    intro x hx
    rcases List.mem_cons.mp hx with rfl | hx2
    · exact hle
    · exact hall x hx2

lemma minCostChild_none {cs : List GNode} (h : minCostChild cs = none) : cs = [] := by
  cases cs with
  | nil => rfl
  | cons c rest => cases h

lemma minCostChild_cost {cs : List GNode} {mc : GNode}
    (h : minCostChild cs = some mc) : minChildCost cs = mc.cost := by
  unfold minChildCost
  rw [h]

lemma addBranch_AnnP (n : GNode) (he : List Cell) (cs : List GNode)
    (hn : ∀ b ∈ n.branches, AnnP b) :
    ∀ b ∈ (n.addBranch he cs).branches, AnnP b := by
  rw [addBranch_branches]
  intro b hb
  rcases List.mem_append.mp hb with hold | hnew
  · exact hn b hold
  · rw [List.mem_singleton.mp hnew]
    intro c hc
    simp only at hc
    split at hc
    · cases hc
    · rename_i mc hmc
      split at hc
      · cases hc
        obtain ⟨hmem, hmin⟩ := minCostChild_spec hmc
        exact ⟨mc, hmem, rfl, hmin⟩
      · cases hc

lemma addBranch_cost_computed (n : GNode) (he : List Cell) (cs : List GNode)
    (hc : n.isCostComputed = true) (hcs : cs ≠ []) :
    (n.addBranch he cs).cost = min n.cost (1 + minChildCost cs) ∧
    (n.addBranch he cs).isCostComputed = true := by
  unfold GNode.addBranch
  split
  · rename_i hmc
    exact absurd (minCostChild_none hmc) hcs
  · rename_i mc hmc
    rw [minCostChild_cost hmc]
    split
    · rename_i hcond
      rcases hcond with hfalse | hlt
      · rw [hc] at hfalse
        exact absurd rfl hfalse
      · constructor
        · show 1 + mc.cost = min n.cost (1 + mc.cost)
          omega
        · rfl
    · rename_i hcond
      push_neg at hcond
      have hge := hcond.2
      constructor
      · show n.cost = min n.cost (1 + mc.cost)
        omega
      · exact hc

lemma addBranch_cost_uncomputed (n : GNode) (he : List Cell) (cs : List GNode)
    (hc : n.isCostComputed = false) (hcs : cs ≠ []) :
    (n.addBranch he cs).cost = 1 + minChildCost cs ∧
    (n.addBranch he cs).isCostComputed = true := by
  unfold GNode.addBranch
  split
  · rename_i hmc
    exact absurd (minCostChild_none hmc) hcs
  · rename_i mc hmc
    rw [minCostChild_cost hmc]
    split
    · exact ⟨rfl, rfl⟩
    · rename_i hcond
      push_neg at hcond
      rw [hc] at hcond
      cases hcond.1

lemma cost_fold_computed :
    ∀ (raw : List (List Cell × List GNode)) (m : GNode),
      (∀ p ∈ raw, p.2 ≠ []) → m.isCostComputed = true →
      ((raw.foldl (fun m p => m.addBranch p.1 p.2) m).cost =
        raw.foldl (fun acc p => min acc (1 + minChildCost p.2)) m.cost) ∧
      (raw.foldl (fun m p => m.addBranch p.1 p.2) m).isCostComputed = true := by
  intro raw
  induction raw with
  | nil => intro m _ hc; exact ⟨rfl, hc⟩
  | cons p raw ih =>
    intro m hne hc
    rw [List.foldl_cons, List.foldl_cons]
    obtain ⟨hcost, hcomp⟩ :=
      addBranch_cost_computed m p.1 p.2 hc (hne p (List.mem_cons_self _ _))
    obtain ⟨hcost2, hcomp2⟩ :=
      ih (m.addBranch p.1 p.2) (fun q hq => hne q (List.mem_cons_of_mem _ hq)) hcomp
    rw [hcost2, hcost]
    exact ⟨rfl, hcomp2⟩

lemma foldl_min_plus_one :
    ∀ (l : List Nat) (x : Nat),
      l.foldl (fun acc y => min acc (1 + y)) (1 + x) = 1 + l.foldl min x := by
  intro l
  induction l with
  | nil => intro x; rfl
  | cons y l ih =>
    intro x
    rw [List.foldl_cons, List.foldl_cons]
    rw [show min (1 + x) (1 + y) = 1 + min x y by omega]
    exact ih (min x y)

lemma rebuild_cost (c : Cell) (raw : List (List Cell × List GNode))
    (h : ∀ p ∈ raw, p.2 ≠ []) :
    (raw = [] → (rebuild c raw).cost = 1) ∧
    (raw ≠ [] →
      (rebuild c raw).cost = 1 + listMinNat (raw.map (fun p => minChildCost p.2))) := by
  cases raw with
  | nil =>
    constructor
    · intro _; rfl
    · intro hcon; exact absurd rfl hcon
  | cons p raw =>
    constructor
    · intro hcon; cases hcon
    · intro _
      unfold rebuild
      rw [List.foldl_cons]
      obtain ⟨hcost0, hcomp0⟩ :=
        addBranch_cost_uncomputed (GNode.leaf c) p.1 p.2 rfl (h p (List.mem_cons_self _ _))
      obtain ⟨hcost, _⟩ := cost_fold_computed raw ((GNode.leaf c).addBranch p.1 p.2)
        (fun q hq => h q (List.mem_cons_of_mem _ hq)) hcomp0
      rw [hcost, hcost0]
      have hmap : raw.foldl (fun acc q => min acc (1 + minChildCost q.2))
          (1 + minChildCost p.2) =
          (raw.map (fun q => minChildCost q.2)).foldl (fun acc y => min acc (1 + y))
            (1 + minChildCost p.2) := by
        rw [List.foldl_map]
      rw [hmap, foldl_min_plus_one]
      rfl

lemma foldl_addBranch_branches :
    ∀ (raw : List (List Cell × List GNode)) (m : GNode),
      ∃ extra, (raw.foldl (fun m p => m.addBranch p.1 p.2) m).branches =
        m.branches ++ extra := by
  intro raw
  induction raw with
  | nil => intro m; exact ⟨[], by simp⟩
  | cons p raw ih =>
    intro m
    rw [List.foldl_cons]
    obtain ⟨extra, hex⟩ := ih (m.addBranch p.1 p.2)
    rw [hex, addBranch_branches]
    exact ⟨_, by rw [List.append_assoc]⟩

lemma foldl_addBranch_AnnP :
    ∀ (raw : List (List Cell × List GNode)) (m : GNode),
      (∀ b ∈ m.branches, AnnP b) →
      ∀ b ∈ (raw.foldl (fun m p => m.addBranch p.1 p.2) m).branches, AnnP b := by
  intro raw
  induction raw with
  | nil => intro m h; exact h
  | cons p raw ih =>
    intro m h
    rw [List.foldl_cons]
    exact ih _ (addBranch_AnnP m p.1 p.2 h)

lemma rawOf_ne {n : GNode} (hne : ∀ b ∈ n.branches, b.2.2 ≠ []) :
    ∀ p ∈ rawOf n, p.2 ≠ [] := by
  intro p hp
  obtain ⟨b, hb, rfl⟩ := List.mem_map.mp hp
  exact hne b hb

lemma goodTree_cost {n : GNode} (hg : GoodTree n) :
    (n.branches = [] → n.cost = 1) ∧
    (n.branches ≠ [] → n.cost = 1 + listMinNat (n.branches.map branchMinCost)) := by
  obtain ⟨hre, hne, hch⟩ : n = rebuild n.cell (rawOf n) ∧
      (∀ b ∈ n.branches, b.2.2 ≠ []) ∧ (∀ b ∈ n.branches, ∀ c ∈ b.2.2, GoodTree c) := by
    cases hg with
    | intro _ h1 h2 h3 => exact ⟨h1, h2, h3⟩
  have h := rebuild_cost n.cell (rawOf n) (rawOf_ne hne)
  constructor
  · intro hb
    have h1 := h.1 (by rw [rawOf, hb]; rfl)
    rw [← hre] at h1
    exact h1
  · intro hb
    have hrne : rawOf n ≠ [] := by
      rw [rawOf]
      intro hcon
      exact hb (List.map_eq_nil.mp hcon)
    have h2 := h.2 hrne
    rw [← hre] at h2
    rw [h2, rawOf, List.map_map]
    rfl

lemma goodTree_ann {n : GNode} (hg : GoodTree n) : ∀ b ∈ n.branches, AnnP b := by
  obtain ⟨hre, -, -⟩ : n = rebuild n.cell (rawOf n) ∧
      (∀ b ∈ n.branches, b.2.2 ≠ []) ∧ (∀ b ∈ n.branches, ∀ c ∈ b.2.2, GoodTree c) := by
    cases hg with
    | intro _ h1 h2 h3 => exact ⟨h1, h2, h3⟩
  have h := foldl_addBranch_AnnP (rawOf n) (GNode.leaf n.cell) (by intro b hb; cases hb)
  intro b hb
  apply h
  have : (rebuild n.cell (rawOf n)).branches = n.branches := by rw [← hre]
  unfold rebuild at this
  rw [this]
  exact hb

lemma goodTree_first_ann {n : GNode} (hg : GoodTree n) :
    ∀ b0 ∈ n.branches.head?, b0.2.1.isSome = true := by
  obtain ⟨hre, hne, -⟩ : n = rebuild n.cell (rawOf n) ∧
      (∀ b ∈ n.branches, b.2.2 ≠ []) ∧ (∀ b ∈ n.branches, ∀ c ∈ b.2.2, GoodTree c) := by
    cases hg with
    | intro _ h1 h2 h3 => exact ⟨h1, h2, h3⟩
  intro b0 hb0
  cases hraw : rawOf n with
  | nil =>
    have hbnil : n.branches = [] := by
      have := hraw
      rw [rawOf] at this
      exact List.map_eq_nil.mp this
    rw [hbnil] at hb0
    cases hb0
  | cons p raw2 =>
    have hpne : p.2 ≠ [] := rawOf_ne hne p (by rw [hraw]; exact List.mem_cons_self _ _)
    cases hmc : minCostChild p.2 with
    | none => exact absurd (minCostChild_none hmc) hpne
    | some mc =>
      have hbr : ((GNode.leaf n.cell).addBranch p.1 p.2).branches =
          [(p.1, some mc.cell, p.2)] := by
        rw [addBranch_branches]
        simp only [hmc]
        rw [if_pos (Or.inl (by intro hcon; cases hcon))]
        rfl
      obtain ⟨extra, hex⟩ :=
        foldl_addBranch_branches raw2 ((GNode.leaf n.cell).addBranch p.1 p.2)
      have hnb : n.branches = (p.1, some mc.cell, p.2) :: extra := by
        conv_lhs => rw [hre]
        show (rebuild n.cell (rawOf n)).branches = _
        rw [hraw]
        unfold rebuild
        rw [List.foldl_cons]
        rw [show (List.foldl (fun m p => m.addBranch p.1 p.2)
            ((GNode.leaf n.cell).addBranch p.1 p.2) raw2).branches =
            ((GNode.leaf n.cell).addBranch p.1 p.2).branches ++ extra from hex, hbr]
        rfl
      rw [hnb] at hb0
      cases hb0
      rfl

lemma leaf_good (c : Cell) : GoodTree (GNode.leaf c) :=
  GoodTree.intro _ rfl (by intro b hb; cases hb) (by intro b hb; cases hb)

lemma addBranch_good (n : GNode) (he : List Cell) (cs : List GNode)
    (hg : GoodTree n) (hcs : cs ≠ []) (hch2 : ∀ c ∈ cs, GoodTree c) :
    GoodTree (n.addBranch he cs) := by
  obtain ⟨hre, hne, hch⟩ : n = rebuild n.cell (rawOf n) ∧
      (∀ b ∈ n.branches, b.2.2 ≠ []) ∧ (∀ b ∈ n.branches, ∀ c ∈ b.2.2, GoodTree c) := by
    cases hg with
    | intro _ h1 h2 h3 => exact ⟨h1, h2, h3⟩
  have hraw : rawOf (n.addBranch he cs) = rawOf n ++ [(he, cs)] := by
    unfold rawOf
    rw [addBranch_branches, List.map_append]
    rfl
  refine GoodTree.intro _ ?_ ?_ ?_
  · rw [hraw, addBranch_cell]
    unfold rebuild
    rw [List.foldl_append]
    show n.addBranch he cs =
      ((rawOf n).foldl (fun m p => m.addBranch p.1 p.2) (GNode.leaf n.cell)).addBranch he cs
    rw [show (rawOf n).foldl (fun m p => m.addBranch p.1 p.2) (GNode.leaf n.cell) =
        rebuild n.cell (rawOf n) from rfl, ← hre]
  · intro b hb
    rw [addBranch_branches] at hb
    rcases List.mem_append.mp hb with hold | hnew
    · exact hne b hold
    · rw [List.mem_singleton.mp hnew]
      exact hcs
  · intro b hb
    rw [addBranch_branches] at hb
    rcases List.mem_append.mp hb with hold | hnew
    · exact hch b hold
    · rw [List.mem_singleton.mp hnew]
      exact hch2

lemma lookup_mem {β : Type} {x : String} {v : β} :
    ∀ {l : List (String × β)}, List.lookup x l = some v → (x, v) ∈ l := by
  intro l
  induction l with
  | nil => intro h; cases h
  | cons p l ih =>
    obtain ⟨k, w⟩ := p
    intro h
    by_cases hc : x = k
    · subst hc
      rw [lookup_cons_self] at h
      cases h
      exact List.mem_cons_self _ _
    · rw [lookup_cons_ne w l hc] at h
      exact List.mem_cons_of_mem _ (ih h)

lemma NmGood_cons {nm : NodeMap} {a : String} {node : GNode}
    (h : NmGood nm) (hn : GoodTree node) : NmGood ((a, node) :: nm) := by
  intro p hp
  rcases List.mem_cons.mp hp with rfl | hp2
  · exact hn
  · exact h p hp2

lemma NmGood_update {nm : NodeMap} {attr : String} {node : GNode}
    (h : NmGood nm) (hnode : GoodTree node) : NmGood (nmUpdate nm attr node) := by
  intro p hp
  unfold nmUpdate at hp
  obtain ⟨q, hq, heq⟩ := List.mem_map.mp hp
  by_cases hc : q.1 = attr
  · rw [if_pos hc] at heq
    rw [← heq]
    exact hnode
  · rw [if_neg hc] at heq
    rw [← heq]
    exact h q hq

lemma nm_lookup_good {nm : NodeMap} {attr : String} {g : GNode}
    (hnm : NmGood nm) (h : nmLookup nm attr = some g) : GoodTree g :=
  hnm (attr, g) (lookup_mem h)

lemma processTails_good
    (rec : String → List String → NodeMap → BRes (GNode × NodeMap))
    (Hrec : ∀ a s nm g nm2, NmGood nm → rec a s nm = .ok (g, nm2) →
      NmGood nm2 ∧ GoodTree g) :
    ∀ (l : List Cell) (current snap2 : List String) (nm : NodeMap)
      (cs : List GNode) (nm2 : NodeMap), NmGood nm →
      processTails rec current snap2 l nm = .ok (cs, nm2) →
      NmGood nm2 ∧ ∀ c ∈ cs, GoodTree c := by
  intro l
  induction l with
  | nil =>
    intro current snap2 nm cs nm2 hnm h
    cases h
    exact ⟨hnm, by intro c hc; cases hc⟩
  | cons tc rest ih =>
    intro current snap2 nm cs nm2 hnm h
    unfold processTails at h
    by_cases hc : tc.attr.col ∈ current
    · rw [if_pos hc] at h
      exact ih current snap2 nm cs nm2 hnm h
    · rw [if_neg hc] at h
      split at h
      · cases h
      · cases h
      · rename_i heq
        split at h
        · cases h
        · cases h
        · rename_i heq2
          cases h
          obtain ⟨hA, hgchild⟩ := Hrec _ _ _ _ _ hnm heq
          obtain ⟨hB, hgrest⟩ := ih _ _ _ _ _ hA heq2
          refine ⟨hB, ?_⟩
          intro c hcm
          rcases List.mem_cons.mp hcm with rfl | hcm2
          · exact hgchild
          · exact hgrest c hcm2

lemma processHEs_good
    (rec : String → List String → NodeMap → BRes (GNode × NodeMap))
    (Hrec : ∀ a s nm g nm2, NmGood nm → rec a s nm = .ok (g, nm2) →
      NmGood nm2 ∧ GoodTree g) :
    ∀ (hes : List (List Cell)) (current : List String) (node : GNode)
      (nm : NodeMap) (node2 : GNode) (nm2 : NodeMap), NmGood nm → GoodTree node →
      processHEs rec current hes node nm = .ok (node2, nm2) →
      NmGood nm2 ∧ GoodTree node2 := by
  intro hes
  induction hes with
  | nil =>
    intro current node nm node2 nm2 hnm hnode h
    cases h
    exact ⟨hnm, hnode⟩
  | cons he rest ih =>
    intro current node nm node2 nm2 hnm hnode h
    unfold processHEs at h
    by_cases hc : (he.map (fun tc => tc.attr.col)).all (fun t => t ∈ current) = true
    · rw [if_pos hc] at h
      exact ih _ _ _ _ _ hnm hnode h
    · rw [if_neg hc] at h
      simp only at h
      split at h
      · cases h
      · cases h
      · rename_i heq
        obtain ⟨hA, hchildren⟩ := processTails_good rec Hrec he _ _ nm _ _ hnm heq
        have hgood2 : ∀ (chs : List GNode), (∀ c ∈ chs, GoodTree c) →
            GoodTree (match chs with
                      | [] => node
                      | _ :: _ => node.addBranch he chs) := by
          intro chs hchs
          cases chs with
          | nil => exact hnode
          | cons c cs2 => exact addBranch_good node he (c :: cs2) hnode (by simp) hchs
        exact ih _ _ _ _ _ hA (hgood2 _ hchildren) h

lemma recurseF_good (row : List (String × Val)) (key : Int)
    (hmap : Cell → List (List Cell)) :
    ∀ (fuel : Nat) (attr : String) (snapshot : List String) (nm : NodeMap)
      (g : GNode) (nm2 : NodeMap), NmGood nm →
      recurseF row key hmap fuel attr snapshot nm = .ok (g, nm2) →
      NmGood nm2 ∧ GoodTree g := by
  intro fuel
  induction fuel with
  | zero => intro attr snapshot nm g nm2 _ h; cases h
  | succ fuel ih =>
    intro attr snapshot nm g nm2 hnm h
    unfold recurseF at h
    split at h
    · cases h
    · rename_i v hv
      split at h
      · rename_i heqnm
        cases h
        exact ⟨hnm, nm_lookup_good hnm heqnm⟩
      · simp only at h
        split at h
        · cases h
        · cases h
        · rename_i heq
          cases h
          have hnm1 : NmGood ((attr,
              GNode.leaf ⟨⟨"adult_data", attr⟩, key, v⟩) :: nm) :=
            NmGood_cons hnm (leaf_good _)
          obtain ⟨hB, hnode2⟩ := processHEs_good _
            (fun a s nmx gx nmx2 hx hok => ih a s nmx gx nmx2 hx hok)
            _ _ _ _ _ _ hnm1 (leaf_good _) heq
          exact ⟨NmGood_update hB hnode2, hnode2⟩

lemma goodTree_ne {n : GNode} (hg : GoodTree n) : ∀ b ∈ n.branches, b.2.2 ≠ [] := by
  cases hg with
  | intro _ _ h2 _ => exact h2

lemma reachN_good : ∀ {n m : GNode}, GoodTree n → ReachN n m → GoodTree m := by
  intro n m hg hr
  induction hr with
  | refl => exact hg
  | step hb hcm _ ih =>
    apply ih
    rename_i n2 m2 b c hbr
    obtain ⟨-, -, hch⟩ : n2 = rebuild n2.cell (rawOf n2) ∧
        (∀ b2 ∈ n2.branches, b2.2.2 ≠ []) ∧
        (∀ b2 ∈ n2.branches, ∀ c2 ∈ b2.2.2, GoodTree c2) := by
      cases hg with
      | intro _ h1 h2 h3 => exact ⟨h1, h2, h3⟩
    exact hch b hb c hcm

lemma builder_good {fuel : Nat} {row : List (String × Val)} {key : Int}
    {startAttr : String} {hmap : Cell → List (List Cell)} {g : GNode} {nmf : NodeMap}
    (hok : build_hypergraph_tree_with_costs fuel row key startAttr hmap = .ok (g, nmf)) :
    GoodTree g :=
  (recurseF_good row key hmap fuel startAttr [startAttr] [] g nmf
    (by intro p hp; cases hp) hok).2

/-- Claim C1 (amended): every node reachable in a tree produced by
build_hypergraph_tree_with_costs satisfies the incremental cost law of
_update_costs_incremental: a node with no branches has cost 1, and a node
with branches has cost 1 + the MINIMUM, over its branches, of the branch's
minimum child cost - not 1 + the sum claimed by the spec, because each
add_branch call keeps `min(old cost, 1 + min child cost)` instead of
accumulating a sum over branches. -/
theorem builder_cost_formula (fuel : Nat) (row : List (String × Val)) (key : Int)
    (startAttr : String) (hmap : Cell → List (List Cell)) (g : GNode) (nmf : NodeMap)
    (hok : build_hypergraph_tree_with_costs fuel row key startAttr hmap = .ok (g, nmf)) :
    ∀ m : GNode, ReachN g m →
      (m.branches = [] → m.cost = 1) ∧
      (m.branches ≠ [] → m.cost = 1 + listMinNat (m.branches.map branchMinCost)) := by
  intro m hr
  exact goodTree_cost (reachN_good (builder_good hok) hr)

/-- Claim C1 counterexample: the fixture root has two branches, each of
minimum child cost 1, so the spec's sum formula demands cost 1 + (1 + 1) = 3,
but the built cost is 2 = 1 + min. -/
theorem builder_cost_not_sum :
    root0.branches ≠ [] ∧
    root0.cost ≠ 1 + (root0.branches.map branchMinCost).sum := by
  have hlen : root0.branches.length = 2 := by rfl
  constructor
  · intro hcon
    rw [hcon] at hlen
    exact absurd hlen (by decide)
  · intro h
    have h1 : root0.cost = 2 := by rfl
    have h2 : 1 + (root0.branches.map branchMinCost).sum = 3 := by rfl
    rw [h1, h2] at h
    exact absurd h (by decide)

/-- Claim C1 witness: on the fixture build, the root is reachable from
itself, has branches, and carries cost 1 + min over branches. -/
theorem builder_cost_formula_witness :
    build_hypergraph_tree_with_costs 5 row0 2 "A" hmap0 = .ok (root0, nmTree0) ∧
    root0.branches ≠ [] ∧
    root0.cost = 1 + listMinNat (root0.branches.map branchMinCost) := by
  have hne : root0.branches ≠ [] := by
    have hlen : root0.branches.length = 2 := by rfl
    intro hcon
    rw [hcon] at hlen
    exact absurd hlen (by decide)
  exact ⟨rfl, hne,
    (builder_cost_formula 5 row0 2 "A" hmap0 root0 nmTree0 rfl root0 (ReachN.refl root0)).2 hne⟩

/-- Claim C4 (amended): in every tree produced by the builder, each attached
branch has a non-empty child list, and whenever a branch's min_cell
annotation is set it names a minimum-cost child of that same branch; the
first attached branch of a node is always annotated.  The spec's stronger
claim that EVERY branch with children carries the annotation fails: the
annotation is written only inside the cost-improvement guard of
_update_costs_incremental, so a later branch that does not lower the node's
cost keeps min_cell = None. -/
theorem builder_min_cell_annot (fuel : Nat) (row : List (String × Val))
    (key : Int) (startAttr : String) (hmap : Cell → List (List Cell))
    (g : GNode) (nmf : NodeMap)
    (hok : build_hypergraph_tree_with_costs fuel row key startAttr hmap = .ok (g, nmf)) :
    ∀ m : GNode, ReachN g m →
      (∀ b ∈ m.branches, b.2.2 ≠ [] ∧ AnnP b) ∧
      (∀ b0 ∈ m.branches.head?, b0.2.1.isSome = true) := by
  intro m hr
  have hm : GoodTree m := reachN_good (builder_good hok) hr
  exact ⟨fun b hb => ⟨goodTree_ne hm b hb, goodTree_ann hm b hb⟩,
    goodTree_first_ann hm⟩

/-- Claim C4 counterexample: the fixture root's second branch has exactly one
child yet its min_cell annotation is None - adding it did not lower the
root's cost, so the guarded annotation assignment never ran. -/
theorem builder_unannotated_branch :
    (root0.branches.getD 1 default).2.1 = none ∧
    (root0.branches.getD 1 default).2.2.length = 1 :=
  ⟨rfl, rfl⟩

/-- Claim C4 witness: on the fixture build, every reachable branch whose
annotation is set names a cheapest child, and the root's first branch is
annotated. -/
theorem builder_min_cell_annot_witness :
    build_hypergraph_tree_with_costs 5 row0 2 "A" hmap0 = .ok (root0, nmTree0) ∧
    ∀ b0 ∈ root0.branches.head?, b0.2.1.isSome = true :=
  ⟨rfl, (builder_min_cell_annot 5 row0 2 "A" hmap0 root0 nmTree0 rfl
    root0 (ReachN.refl root0)).2⟩

lemma reachN_trans : ∀ {a b c : GNode}, ReachN a b → ReachN b c → ReachN a c := by
  intro a b c h1
  induction h1 with
  | refl => intro h2; exact h2
  | step hb hc _ ih => intro h2; exact ReachN.step hb hc (ih h2)

lemma searchList_spec {t : Cell} (find1 : GNode → Option GNode)
    (H : ∀ c r, find1 c = some r → r.cell = t ∧ ReachN c r) :
    ∀ (l : List GNode) (r : GNode), searchList find1 l = some r →
      ∃ c ∈ l, r.cell = t ∧ ReachN c r := by
  intro l
  induction l with
  | nil => intro r h; cases h
  | cons c cs ih =>
    intro r h
    unfold searchList at h
    split at h
    · rename_i hr2
      cases h
      exact ⟨c, List.mem_cons_self _ _, H c _ hr2⟩
    · obtain ⟨c2, hm, hp⟩ := ih r h
      exact ⟨c2, List.mem_cons_of_mem _ hm, hp⟩

lemma searchKids_spec {t : Cell} (find1 : GNode → Option GNode)
    (H : ∀ c r, find1 c = some r → r.cell = t ∧ ReachN c r) :
    ∀ (bs : List GBranch) (r : GNode), searchKids find1 bs = some r →
      ∃ b ∈ bs, ∃ c ∈ b.2.2, r.cell = t ∧ ReachN c r := by
  intro bs
  induction bs with
  | nil => intro r h; cases h
  | cons b bs ih =>
    intro r h
    unfold searchKids at h
    split at h
    · rename_i hr2
      cases h
      obtain ⟨c, hm, hp⟩ := searchList_spec find1 H b.2.2 _ hr2
      exact ⟨b, List.mem_cons_self _ _, c, hm, hp⟩
    · obtain ⟨b2, hm, hp⟩ := ih r h
      exact ⟨b2, List.mem_cons_of_mem _ hm, hp⟩

lemma findNodeF_spec : ∀ (fuel : Nat) (n : GNode) (t : Cell) (r : GNode),
    findNodeF fuel n t = some r → r.cell = t ∧ ReachN n r := by
  intro fuel
  induction fuel with
  | zero => intro n t r h; cases h
  | succ fuel ih =>
    intro n t r h
    unfold findNodeF at h
    by_cases hc : n.cell = t
    · rw [if_pos hc] at h
      cases h
      exact ⟨hc, ReachN.refl n⟩
    · rw [if_neg hc] at h
      obtain ⟨b, hb, c, hcb, hcell, hreach⟩ :=
        searchKids_spec (fun c => findNodeF fuel c t) (fun c r2 h2 => ih c t r2 h2)
          n.branches r h
      exact ⟨hcell, ReachN.step hb hcb hreach⟩

lemma allNodesList_mem {f : GNode → Option (List GNode)} :
    ∀ {cs : List GNode} {l : List GNode}, allNodesList f cs = some l →
      ∀ {c : GNode}, c ∈ cs → ∃ lc, f c = some lc ∧ ∀ x ∈ lc, x ∈ l := by
  intro cs
  induction cs with
  | nil => intro l h c hc; cases hc
  | cons c0 cs ih =>
    intro l h c hc
    unfold allNodesList at h
    split at h
    · rename_i l1 l2 h1 h2
      cases h
      rcases List.mem_cons.mp hc with rfl | hc2
      · exact ⟨l1, h1, fun x hx => List.mem_append_left _ hx⟩
      · obtain ⟨lc, hlc, hsub⟩ := ih h2 hc2
        exact ⟨lc, hlc, fun x hx => List.mem_append_right _ (hsub x hx)⟩
    · cases h

lemma allNodesBranches_mem {f : GNode → Option (List GNode)} :
    ∀ {bs : List GBranch} {l : List GNode}, allNodesBranches f bs = some l →
      ∀ {b : GBranch}, b ∈ bs →
        ∃ lb, allNodesList f b.2.2 = some lb ∧ ∀ x ∈ lb, x ∈ l := by
  intro bs
  induction bs with
  | nil => intro l h b hb; cases hb
  | cons b0 bs ih =>
    intro l h b hb
    unfold allNodesBranches at h
    split at h
    · rename_i l1 l2 h1 h2
      cases h
      rcases List.mem_cons.mp hb with rfl | hb2
      · exact ⟨l1, h1, fun x hx => List.mem_append_left _ hx⟩
      · obtain ⟨lb, hlb, hsub⟩ := ih h2 hb2
        exact ⟨lb, hlb, fun x hx => List.mem_append_right _ (hsub x hx)⟩
    · cases h

lemma reachN_mem_allNodes {n m : GNode} (hr : ReachN n m) :
    ∀ (fuel : Nat) (ns : List GNode), allNodesF fuel n = some ns → m ∈ ns := by
  induction hr with
  | refl =>
    intro fuel ns h
    cases fuel with
    | zero => cases h
    | succ fuel =>
      unfold allNodesF at h
      split at h
      · cases h
        exact List.mem_cons_self _ _
      · cases h
  | step hb hc _ ih =>
    intro fuel ns h
    cases fuel with
    | zero => cases h
    | succ fuel =>
      unfold allNodesF at h
      split at h
      · rename_i l hl
        cases h
        obtain ⟨lb, hlb, hsub⟩ := allNodesBranches_mem hl hb
        obtain ⟨lc, hlc, hsub2⟩ := allNodesList_mem hlb hc
        exact List.mem_cons_of_mem _ (hsub _ (hsub2 _ (ih fuel lc hlc)))
      · cases h

lemma nodup_map_inj : ∀ {l : List GNode}, (l.map GNode.cell).Nodup →
    ∀ {a b : GNode}, a ∈ l → b ∈ l → a.cell = b.cell → a = b := by
  intro l
  induction l with
  | nil => intro _ a b ha; cases ha
  | cons x xs ih =>
    intro h a b ha hb hc
    rw [List.map_cons, List.nodup_cons] at h
    rcases List.mem_cons.mp ha with rfl | ha2
    · rcases List.mem_cons.mp hb with rfl | hb2
      · rfl
      · exact absurd (by rw [hc]; exact List.mem_map_of_mem _ hb2) h.1
    · rcases List.mem_cons.mp hb with rfl | hb2
      · exact absurd (by rw [← hc]; exact List.mem_map_of_mem _ ha2) h.1
      · exact ih h.2 ha2 hb2 hc

lemma cellsNodup_inj (fuel : Nat) (root : GNode)
    (h : cellsNodupB fuel root = true) :
    ∀ m1 m2 : GNode, ReachN root m1 → ReachN root m2 → m1.cell = m2.cell →
      m1 = m2 := by
  unfold cellsNodupB at h
  split at h
  · rename_i ns hns
    have hnd : (ns.map GNode.cell).Nodup := of_decide_eq_true h
    intro m1 m2 h1 h2 hc
    exact nodup_map_inj hnd (reachN_mem_allNodes h1 fuel ns hns)
      (reachN_mem_allNodes h2 fuel ns hns) hc
  · cases h

lemma odBranches_inv (findRoot : Cell → Option GNode) (root start curr : GNode)
    (t : Cell)
    (hFR : ∀ m nxt, findRoot m = some nxt → nxt.cell = m ∧ ReachN root nxt)
    (hAnn : ∀ m2, ReachN root m2 → ∀ b ∈ m2.branches, AnnP b)
    (hInj : ∀ m1 m2 : GNode, ReachN root m1 → ReachN root m2 →
      m1.cell = m2.cell → m1 = m2)
    (hrs : ReachN root start) (hcurr : ReachN start curr)
    (acc : List Cell) (hacc : ∀ c ∈ acc, ReachCell start c) (ht : t ∈ acc) :
    (∀ c ∈ (odBranches findRoot curr.branches acc).1, ReachCell start c) ∧
    t ∈ (odBranches findRoot curr.branches acc).1 ∧
    (∀ q ∈ (odBranches findRoot curr.branches acc).2, ReachN start q) := by
  unfold odBranches
  refine @List.foldlRecOn _ _
    (fun p => (∀ c ∈ p.1, ReachCell start c) ∧ t ∈ p.1 ∧
      ∀ q ∈ p.2, ReachN start q)
    curr.branches _ (acc, ([] : List GNode))
    ⟨hacc, ht, by intro q hq; cases hq⟩ ?_
  intro p hp b hb
  obtain ⟨hp1, hpt, hp2⟩ := hp
  cases hmb : b.2.1 with
  | none =>
    simp only [hmb]
    exact ⟨hp1, hpt, hp2⟩
  | some m =>
    simp only [hmb]
    by_cases hmem : m ∈ p.1
    · rw [if_pos hmem]
      exact ⟨hp1, hpt, hp2⟩
    · rw [if_neg hmem]
      have hcr : ReachN root curr := reachN_trans hrs hcurr
      obtain ⟨ch, hch, hcell, -⟩ := hAnn curr hcr b hb m hmb
      have hsc : ReachN start ch :=
        reachN_trans hcurr (ReachN.step hb hch (ReachN.refl ch))
      refine ⟨?_, List.mem_append_left _ hpt, ?_⟩
      · intro c hc
        rcases List.mem_append.mp hc with h1 | h2
        · exact hp1 c h1
        · rw [List.mem_singleton.mp h2, ← hcell]
          exact ⟨ch, hsc, rfl⟩
      · intro q hq
        rcases List.mem_append.mp hq with h1 | h2
        · exact hp2 q h1
        · cases hfr : findRoot m with
          | none =>
            simp only [hfr] at h2
            cases h2
          | some nxt =>
            simp only [hfr] at h2
            rw [List.mem_singleton.mp h2]
            obtain ⟨hnc, hrn⟩ := hFR m nxt hfr
            have heqn : nxt = ch :=
              hInj nxt ch hrn (reachN_trans hrs hsc) (by rw [hnc, hcell])
            rw [heqn]
            exact hsc

lemma odLoop_inv (findRoot : Cell → Option GNode) (root start : GNode) (t : Cell)
    (hFR : ∀ m nxt, findRoot m = some nxt → nxt.cell = m ∧ ReachN root nxt)
    (hAnn : ∀ m2, ReachN root m2 → ∀ b ∈ m2.branches, AnnP b)
    (hInj : ∀ m1 m2 : GNode, ReachN root m1 → ReachN root m2 →
      m1.cell = m2.cell → m1 = m2)
    (hrs : ReachN root start) :
    ∀ (fuel : Nat) (queue : List GNode) (acc : List Cell),
      (∀ q ∈ queue, ReachN start q) →
      (∀ c ∈ acc, ReachCell start c) → t ∈ acc →
      (∀ c ∈ odLoop findRoot fuel queue acc, ReachCell start c) ∧
      t ∈ odLoop findRoot fuel queue acc := by
  intro fuel
  induction fuel with
  | zero => intro queue acc _ hacc ht; exact ⟨hacc, ht⟩
  | succ fuel ih =>
    intro queue acc hqueue hacc ht
    cases queue with
    | nil => exact ⟨hacc, ht⟩
    | cons curr queue =>
      have hred : odLoop findRoot (fuel + 1) (curr :: queue) acc =
          odLoop findRoot fuel (queue ++ (odBranches findRoot curr.branches acc).2)
            (odBranches findRoot curr.branches acc).1 := rfl
      rw [hred]
      obtain ⟨h1, h2, h3⟩ := odBranches_inv findRoot root start curr t hFR hAnn hInj
        hrs (hqueue curr (List.mem_cons_self _ _)) acc hacc ht
      apply ih
      · intro q hq
        rcases List.mem_append.mp hq with hq1 | hq2
        · exact hqueue q (List.mem_cons_of_mem _ hq1)
        · exact h3 q hq2
      · exact h1
      · exact h2

/-- Claim C3 (amended): when the target cell's node IS found in the tree, the
extractor's result contains the target cell and every member is a cell
reachable from the found node, provided the tree's reachable branches carry
sound min_cell annotations and reachable nodes have pairwise distinct cells.
The unconditional claim fails: when find_node returns None the function
returns the empty set, which does not contain the target. -/
theorem optimal_delete_superset (fuel : Nat) (root : GNode) (t : Cell)
    (start : GNode)
    (hfind : findNodeF fuel root t = some start)
    (hAnn : ∀ m2, ReachN root m2 → ∀ b ∈ m2.branches, AnnP b)
    (hInj : ∀ m1 m2 : GNode, ReachN root m1 → ReachN root m2 →
      m1.cell = m2.cell → m1 = m2) :
    t ∈ optimal_delete_with_precomputed_costs fuel root t ∧
    ∀ c ∈ optimal_delete_with_precomputed_costs fuel root t, ReachCell start c := by
  obtain ⟨hcell, hrs⟩ := findNodeF_spec fuel root t start hfind
  have hod : optimal_delete_with_precomputed_costs fuel root t =
      odLoop (fun m => findNodeF fuel root m) fuel [start] [t] := by
    unfold optimal_delete_with_precomputed_costs
    rw [hfind]
  have h := odLoop_inv (fun m => findNodeF fuel root m) root start t
    (fun m nxt h2 => findNodeF_spec fuel root m nxt h2) hAnn hInj hrs fuel
    [start] [t]
    (by
      intro q hq
      rw [List.mem_singleton.mp hq]
      exact ReachN.refl start)
    (by
      intro c hc
      rw [List.mem_singleton.mp hc]
      exact ⟨start, ReachN.refl start, hcell⟩)
    (List.mem_singleton_self t)
  rw [hod]
  exact ⟨h.2, h.1⟩

/-- Claim C3 counterexample: for a cell absent from the fixture tree the
extractor returns the empty set, which does not contain the target cell -
refuting the unconditional "always returns a set containing the target". -/
theorem optimal_delete_misses_absent_target :
    optimal_delete_with_precomputed_costs 6 root0 cellX = [] ∧
    cellX ∉ optimal_delete_with_precomputed_costs 6 root0 cellX := by
  refine ⟨rfl, ?_⟩
  intro h
  rw [show optimal_delete_with_precomputed_costs 6 root0 cellX = [] from rfl] at h
  cases h

/-- Claim C3 witness: on the fixture tree the deletion set for cellA contains
cellA itself, and its member cellB is reachable from the found node (the
root). -/
theorem optimal_delete_superset_witness :
    cellA ∈ optimal_delete_with_precomputed_costs 5 root0 cellA ∧
    ReachCell root0 cellB := by
  have hg : GoodTree root0 := builder_good
    (show build_hypergraph_tree_with_costs 5 row0 2 "A" hmap0 =
      .ok (root0, nmTree0) from rfl)
  have h := optimal_delete_superset 5 root0 cellA root0 rfl
    (fun m2 hm2 b hb => goodTree_ann (reachN_good hg hm2) b hb)
    (cellsNodup_inj 5 root0 (by decide))
  refine ⟨h.1, h.2 cellB ?_⟩
  rw [show optimal_delete_with_precomputed_costs 5 root0 cellA =
    [cellA, cellB] from rfl]
  exact List.mem_cons_of_mem _ (List.mem_cons_self _ _)

end RTF
